import Mathlib

/-!
Verification of the content-extraction engine of the send-to-kindle repository.

The repository contains three implementations of the extractor:
* a regex-based `ArticleFetcher` class (packages/article-fetcher/src/fetcher.ts,
  first half) — modelled in namespace `Rx`;
* a linkedom-based functional module (same file, second half) — modelled in
  namespace `Ld`;
* a JSDOM-based `ArticleFetcher` class (src/unnamed/part_001) — modelled in
  namespace `Jd`.

Strings are modelled as `List Char` (`Str`).  The DOM tree handed to the two
DOM-based variants by the external parsing library is modelled by the `Dom`
namespace, following the collaborator interface of spec §6.
-/

abbrev Str := List Char

/-- JavaScript `\s` character class (also the character set removed by
`String.prototype.trim`): tab, LF, VT, FF, CR, space, NBSP and the Unicode
space separators, line/paragraph separators, and BOM. -/
def isJsWs (c : Char) : Bool :=
  c.toNat = 9 || c.toNat = 10 || c.toNat = 11 || c.toNat = 12 || c.toNat = 13 ||
  c.toNat = 32 || c.toNat = 160 || c.toNat = 5760 ||
  (8192 ≤ c.toNat && c.toNat ≤ 8202) ||
  c.toNat = 8232 || c.toNat = 8233 || c.toNat = 8239 || c.toNat = 8287 ||
  c.toNat = 12288 || c.toNat = 65279

/-- JavaScript `\w` (word character), used by the `\b` word-boundary assertion:
ASCII letters, digits and underscore. -/
def isWordChar (c : Char) : Bool :=
  ('a' ≤ c && c ≤ 'z') || ('A' ≤ c && c ≤ 'Z') || ('0' ≤ c && c ≤ '9') || c = '_'

/-- Case folding for the `i` regex flag (the tag/attribute literals involved
are ASCII). -/
def lowerChar (c : Char) : Char := c.toLower

/-- Case-insensitive character comparison (regex `i` flag). -/
def eqCI (a b : Char) : Bool := lowerChar a = lowerChar b

/-- `String.prototype.trim`, left part: drop leading whitespace. -/
def jsTrimLeft (s : Str) : Str := s.dropWhile isJsWs

/-- `String.prototype.trim`, right part: drop trailing whitespace. -/
def jsTrimRight (s : Str) : Str := (s.reverse.dropWhile isJsWs).reverse

/-- `String.prototype.trim`. -/
def jsTrim (s : Str) : Str := jsTrimRight (jsTrimLeft s)

/-- Worker for `.replace(/\s+/g, ' ')`: the flag records whether the current
position is inside a whitespace run whose single replacement space has already
been emitted. -/
def collapseGo : Bool → Str → Str
  | _, [] => []
  | prevWs, c :: rest =>
    if isJsWs c then
      (if prevWs then collapseGo true rest else ' ' :: collapseGo true rest)
    else c :: collapseGo false rest

/-- `.replace(/\s+/g, ' ')`: every maximal whitespace run becomes one space. -/
def collapseWs (s : Str) : Str := collapseGo false s

/-- `Array.prototype.join(' ')`. -/
def joinSp : List Str → Str
  | [] => []
  | [x] => x
  | x :: y :: r => x ++ ' ' :: joinSp (y :: r)

/-- Substring (contiguous) relation on `Str`, used to state marker-containment
properties. -/
def SubStr (m s : Str) : Prop := ∃ a b, s = a ++ m ++ b

/-- Executable check that `m` occurs as a prefix of `s`. -/
def prefixB : Str → Str → Bool
  | [], _ => true
  | _ :: _, [] => false
  | a :: m, b :: s => a = b && prefixB m s

/-- Executable contiguous-substring check. -/
def subStrB (m : Str) : Str → Bool
  | [] => prefixB m []
  | s@(_ :: rest) => prefixB m s || subStrB m rest

theorem prefixB_iff (m s : Str) : prefixB m s = true ↔ ∃ b, s = m ++ b := by
  induction m generalizing s with
  | nil => simp [prefixB]
  | cons a m ih =>
    cases s with
    | nil => simp [prefixB]
    | cons b s =>
      simp only [prefixB, Bool.and_eq_true, decide_eq_true_eq, ih, List.cons_append,
        List.cons.injEq]
      constructor
      · rintro ⟨rfl, c, rfl⟩; exact ⟨c, rfl, rfl⟩
      · rintro ⟨c, rfl, rfl⟩; exact ⟨rfl, c, rfl⟩

theorem subStrB_iff (m s : Str) : subStrB m s = true ↔ SubStr m s := by
  induction s with
  | nil =>
    simp only [subStrB, prefixB_iff, SubStr]
    constructor
    · rintro ⟨b, h⟩; exact ⟨[], b, by simp [h]⟩
    · rintro ⟨a, b, h⟩
      obtain ⟨hab, hb⟩ := List.append_eq_nil.mp h.symm
      obtain ⟨-, hm⟩ := List.append_eq_nil.mp hab
      exact ⟨b, by simp [hm, hb]⟩
  | cons c rest ih =>
    simp only [subStrB, Bool.or_eq_true, prefixB_iff, ih, SubStr]
    constructor
    · rintro (⟨b, h⟩ | ⟨a, b, h⟩)
      · exact ⟨[], b, by simp [h]⟩
      · exact ⟨c :: a, b, by simp [h]⟩
    · rintro ⟨a, b, h⟩
      cases a with
      | nil => exact Or.inl ⟨b, by simpa using h⟩
      | cons x a =>
        rw [List.cons_append, List.cons_append] at h
        exact Or.inr ⟨a, b, by simpa using (by simpa using h : c = x ∧ rest = a ++ (m ++ b)).2⟩

namespace Rx

/-- Rest of the list strictly after the first occurrence of `c`, if any.
This is how the regex head `<[^>]*>` consumes its closing bracket: the greedy
`[^>]*` cannot cross a bracket, so the match ends at the first one. -/
def dropThroughCh (c : Char) : Str → Option Str
  | [] => none
  | x :: xs => if x = c then some xs else dropThroughCh c xs

/-- Split at the first semicolon: `splitAtSemi s = some (a, b)` when
`s = a ++ ';' :: b` and `a` is semicolon-free. -/
def splitAtSemi : Str → Option (Str × Str)
  | [] => none
  | x :: xs =>
    if x = ';' then some ([], xs)
    else
      match splitAtSemi xs with
      | some (a, b) => some (x :: a, b)
      | none => none

/-- Worker for `.replace(/<[^>]*>/g, ' ')` (first step of `cleanText`).  At a
`<` the pattern matches exactly when a `>` occurs later, and the match ends at
the first such `>`.  When no `>` remains, no later start can match either (a
match needs a `>` after a later `<`), so the remainder is copied verbatim.
Fuel is the length of the scanned list. -/
def tagReplGo : Nat → Str → Str
  | 0, s => s
  | _ + 1, [] => []
  | fuel + 1, c :: rest =>
    if c = '<' then
      match dropThroughCh '>' rest with
      | some rest2 => ' ' :: tagReplGo fuel rest2
      | none => c :: rest
    else c :: tagReplGo fuel rest

/-- `.replace(/<[^>]*>/g, ' ')`. -/
def tagRepl (s : Str) : Str := tagReplGo s.length s

/-- Worker for `.replace(/&[^;]+;/g, ' ')` (second step of `cleanText`).  At an
`&` the pattern matches exactly when the first later semicolon has at least one
character between it and the `&`; the regex engine otherwise advances one
position (adjacent semicolon) or, when no semicolon remains at all, can never
match again, so the remainder is copied verbatim. -/
def entityReplGo : Nat → Str → Str
  | 0, s => s
  | _ + 1, [] => []
  | fuel + 1, c :: rest =>
    if c = '&' then
      match splitAtSemi rest with
      | some (before, after) =>
        if before = [] then c :: entityReplGo fuel rest
        else ' ' :: entityReplGo fuel after
      | none => c :: rest
    else c :: entityReplGo fuel rest

/-- `.replace(/&[^;]+;/g, ' ')`. -/
def entityRepl (s : Str) : Str := entityReplGo s.length s

/-- `cleanText` of the regex-based `ArticleFetcher` (fetcher.ts lines 214-220):
strip tag-shaped runs, strip entity-shaped runs, collapse whitespace, trim. -/
def cleanText (s : Str) : Str := jsTrim (collapseWs (entityRepl (tagRepl s)))

end Rx

namespace Rx

theorem dropThroughCh_none {c : Char} {s : Str} : dropThroughCh c s = none ↔ c ∉ s := by
  induction s with
  | nil => simp [dropThroughCh]
  | cons x xs ih =>
    by_cases hx : x = c
    · subst hx; simp [dropThroughCh]
    · simp [dropThroughCh, hx, ih, Ne.symm hx]

theorem dropThroughCh_some {c : Char} {s t : Str} (h : dropThroughCh c s = some t) :
    ∃ a, s = a ++ c :: t := by
  induction s generalizing t with
  | nil => simp [dropThroughCh] at h
  | cons x xs ih =>
    by_cases hx : x = c
    · subst hx
      simp only [dropThroughCh, if_pos, Option.some.injEq] at h
      exact ⟨[], by simp [h]⟩
    · simp only [dropThroughCh, if_neg hx] at h
      obtain ⟨a, ha⟩ := ih h
      exact ⟨x :: a, by simp [ha]⟩

theorem splitAtSemi_none {s : Str} : splitAtSemi s = none ↔ ';' ∉ s := by
  induction s with
  | nil => simp [splitAtSemi]
  | cons x xs ih =>
    by_cases hx : x = ';'
    · subst hx; simp [splitAtSemi]
    · cases hsp : splitAtSemi xs with
      | none => simp [splitAtSemi, hx, hsp, ih.mp hsp, Ne.symm hx]
      | some p =>
        have hmem : ';' ∈ xs := by
          by_contra hq
          rw [ih.mpr hq] at hsp; cases hsp
        simp [splitAtSemi, hx, hsp, hmem]

theorem splitAtSemi_some {s a b : Str} (h : splitAtSemi s = some (a, b)) :
    s = a ++ ';' :: b := by
  induction s generalizing a b with
  | nil => simp [splitAtSemi] at h
  | cons x xs ih =>
    by_cases hx : x = ';'
    · subst hx
      rw [splitAtSemi, if_pos rfl] at h
      obtain ⟨h1, h2⟩ := Prod.mk.injEq .. ▸ Option.some.injEq .. ▸ h
      simp_all
    · rw [splitAtSemi, if_neg hx] at h
      cases hsp : splitAtSemi xs with
      | none => rw [hsp] at h; cases h
      | some p =>
        rw [hsp] at h
        obtain ⟨pa, pb⟩ := p
        simp only [Option.some.injEq, Prod.mk.injEq] at h
        have hd := ih (a := pa) (b := pb) hsp
        rw [← h.1, ← h.2]
        simp [hd]

end Rx

namespace Rx

/-- After a global `<[^>]*>` replacement no `<` is followed by a later `>`:
the pattern can never match again. -/
def NoTagPat (s : Str) : Prop := ∀ a b, s = a ++ '<' :: b → '>' ∉ b

/-- The continuation after an `&` at which `&[^;]+;` fails: the first
semicolon, if any, is adjacent to the ampersand. -/
def SemiOk (t : Str) : Prop := (∃ u, t = ';' :: u) ∨ ';' ∉ t

/-- After a global `&[^;]+;` replacement every `&` has an adjacent first
semicolon or none at all: the pattern can never match again. -/
def NoEntPat (s : Str) : Prop := ∀ a b, s = a ++ '&' :: b → SemiOk b

theorem noTagPat_nil : NoTagPat [] := by
  intro a b h
  cases a <;> simp at h

theorem noEntPat_nil : NoEntPat [] := by
  intro a b h
  cases a <;> simp at h

theorem noTagPat_cons {c : Char} {s : Str} :
    NoTagPat (c :: s) ↔ ((c = '<' → '>' ∉ s) ∧ NoTagPat s) := by
  constructor
  · intro h
    refine ⟨fun hc => h [] s (by simp [hc]), fun a b hab => h (c :: a) b (by simp [hab])⟩
  · rintro ⟨h1, h2⟩ a b hab
    cases a with
    | nil =>
      simp only [List.nil_append, List.cons.injEq] at hab
      exact hab.2 ▸ h1 hab.1
    | cons x a =>
      simp only [List.cons_append, List.cons.injEq] at hab
      exact h2 a b hab.2

theorem noEntPat_cons {c : Char} {s : Str} :
    NoEntPat (c :: s) ↔ ((c = '&' → SemiOk s) ∧ NoEntPat s) := by
  constructor
  · intro h
    refine ⟨fun hc => h [] s (by simp [hc]), fun a b hab => h (c :: a) b (by simp [hab])⟩
  · rintro ⟨h1, h2⟩ a b hab
    cases a with
    | nil =>
      simp only [List.nil_append, List.cons.injEq] at hab
      exact hab.2 ▸ h1 hab.1
    | cons x a =>
      simp only [List.cons_append, List.cons.injEq] at hab
      exact h2 a b hab.2

theorem noTagPat_of_not_mem {s : Str} (h : '>' ∉ s) : NoTagPat s := by
  intro a b hab
  subst hab
  intro hb
  exact h (by simp [hb])

theorem noEntPat_of_not_mem {s : Str} (h : ';' ∉ s) : NoEntPat s := by
  intro a b hab
  subst hab
  exact Or.inr fun hb => h (by simp [hb])

theorem semiOk_append_left {a b : Str} (h : SemiOk (a ++ b)) : a ≠ [] → SemiOk a := by
  intro hne
  rcases h with ⟨u, hu⟩ | hnm
  · cases a with
    | nil => exact absurd rfl hne
    | cons x xs =>
      simp only [List.cons_append, List.cons.injEq] at hu
      exact Or.inl ⟨xs, by rw [hu.1]⟩
  · exact Or.inr fun hm => hnm (by simp [hm])

theorem noTagPat_append {a b : Str} (h : NoTagPat (a ++ b)) : NoTagPat a ∧ NoTagPat b := by
  constructor
  · intro x y hxy
    have : a ++ b = x ++ '<' :: (y ++ b) := by simp [hxy]
    intro hy
    exact h x (y ++ b) this (by simp [hy])
  · intro x y hxy
    exact h (a ++ x) y (by simp [hxy])

theorem noEntPat_append {a b : Str} (h : NoEntPat (a ++ b)) : NoEntPat a ∧ NoEntPat b := by
  constructor
  · intro x y hxy
    have hsem : SemiOk (y ++ b) := h x (y ++ b) (by simp [hxy])
    rcases hsem with ⟨u, hu⟩ | hnm
    · cases y with
      | nil => exact Or.inr (by simp)
      | cons z zs =>
        simp only [List.cons_append, List.cons.injEq] at hu
        exact Or.inl ⟨zs, by rw [hu.1]⟩
    · exact Or.inr fun hm => hnm (by simp [hm])
  · intro x y hxy
    exact h (a ++ x) y (by simp [hxy])

end Rx

namespace Rx

theorem mem_tagReplGo {x : Char} : ∀ {fuel : Nat} {s : Str},
    x ∈ tagReplGo fuel s → x ∈ s ∨ x = ' '
  | 0, s, h => Or.inl h
  | _ + 1, [], h => by simp [tagReplGo] at h
  | fuel + 1, c :: rest, h => by
    by_cases hc : c = '<'
    · subst hc
      rw [tagReplGo, if_pos rfl] at h
      cases hdr : dropThroughCh '>' rest with
      | some rest2 =>
        rw [hdr] at h
        rcases List.mem_cons.mp h with h1 | h2
        · exact Or.inr h1
        · rcases mem_tagReplGo h2 with h3 | h3
          · obtain ⟨a, ha⟩ := dropThroughCh_some hdr
            exact Or.inl (by simp [ha, h3])
          · exact Or.inr h3
      | none => rw [hdr] at h; exact Or.inl h
    · rw [tagReplGo, if_neg hc] at h
      rcases List.mem_cons.mp h with h1 | h2
      · exact Or.inl (by simp [h1])
      · rcases mem_tagReplGo h2 with h3 | h3
        · exact Or.inl (by simp [h3])
        · exact Or.inr h3

theorem mem_entityReplGo {x : Char} : ∀ {fuel : Nat} {s : Str},
    x ∈ entityReplGo fuel s → x ∈ s ∨ x = ' '
  | 0, s, h => Or.inl h
  | _ + 1, [], h => by simp [entityReplGo] at h
  | fuel + 1, c :: rest, h => by
    by_cases hc : c = '&'
    · subst hc
      rw [entityReplGo, if_pos rfl] at h
      cases hsp : splitAtSemi rest with
      | some p =>
        obtain ⟨before, after⟩ := p
        rw [hsp] at h
        dsimp only at h
        by_cases hb : before = []
        · rw [if_pos hb] at h
          rcases List.mem_cons.mp h with h1 | h2
          · exact Or.inl (by simp [h1])
          · rcases mem_entityReplGo h2 with h3 | h3
            · exact Or.inl (by simp [h3])
            · exact Or.inr h3
        · rw [if_neg hb] at h
          rcases List.mem_cons.mp h with h1 | h2
          · exact Or.inr h1
          · rcases mem_entityReplGo h2 with h3 | h3
            · exact Or.inl (by simp [splitAtSemi_some hsp, h3])
            · exact Or.inr h3
      | none => rw [hsp] at h; exact Or.inl h
    · rw [entityReplGo, if_neg hc] at h
      rcases List.mem_cons.mp h with h1 | h2
      · exact Or.inl (by simp [h1])
      · rcases mem_entityReplGo h2 with h3 | h3
        · exact Or.inl (by simp [h3])
        · exact Or.inr h3

theorem mem_collapseGo {x : Char} : ∀ {s : Str} {b : Bool},
    x ∈ collapseGo b s → x ∈ s ∨ x = ' '
  | [], b, h => by simp [collapseGo] at h
  | c :: rest, b, h => by
    by_cases hc : isJsWs c
    · rw [collapseGo, if_pos hc] at h
      cases b with
      | true =>
        rcases mem_collapseGo h with h3 | h3
        · exact Or.inl (by simp [h3])
        · exact Or.inr h3
      | false =>
        simp only [Bool.false_eq_true, if_neg] at h
        rcases List.mem_cons.mp h with h1 | h2
        · exact Or.inr h1
        · rcases mem_collapseGo h2 with h3 | h3
          · exact Or.inl (by simp [h3])
          · exact Or.inr h3
    · rw [collapseGo, if_neg hc] at h
      rcases List.mem_cons.mp h with h1 | h2
      · exact Or.inl (by simp [h1])
      · rcases mem_collapseGo h2 with h3 | h3
        · exact Or.inl (by simp [h3])
        · exact Or.inr h3

end Rx

namespace Rx

theorem noTagPat_tagReplGo : ∀ (fuel : Nat) (s : Str), s.length ≤ fuel →
    NoTagPat (tagReplGo fuel s)
  | 0, s, h => by
    have : s = [] := List.length_eq_zero.mp (Nat.le_zero.mp h)
    subst this
    exact noTagPat_nil
  | _ + 1, [], _ => by
    rw [tagReplGo]; exact noTagPat_nil
  | fuel + 1, c :: rest, h => by
    by_cases hc : c = '<'
    · subst hc
      rw [tagReplGo, if_pos rfl]
      cases hdr : dropThroughCh '>' rest with
      | some rest2 =>
        obtain ⟨a, ha⟩ := dropThroughCh_some hdr
        have hlen : rest2.length ≤ fuel := by
          have h1 : rest.length ≤ fuel := Nat.le_of_succ_le_succ (by simpa using h)
          have h2 : rest2.length < rest.length := by simp [ha]; omega
          omega
        refine noTagPat_cons.mpr ⟨fun hcc => absurd hcc (by decide), noTagPat_tagReplGo fuel rest2 hlen⟩
      | none =>
        have hnm : '>' ∉ rest := dropThroughCh_none.mp hdr
        exact noTagPat_cons.mpr ⟨fun _ => hnm, noTagPat_of_not_mem hnm⟩
    · rw [tagReplGo, if_neg hc]
      have hlen : rest.length ≤ fuel := Nat.le_of_succ_le_succ (by simpa using h)
      exact noTagPat_cons.mpr ⟨fun hcc => absurd hcc hc, noTagPat_tagReplGo fuel rest hlen⟩

theorem tagReplGo_id : ∀ (fuel : Nat) {s : Str}, NoTagPat s → tagReplGo fuel s = s
  | 0, s, _ => rfl
  | _ + 1, [], _ => by rw [tagReplGo]
  | fuel + 1, c :: rest, h => by
    obtain ⟨h1, h2⟩ := noTagPat_cons.mp h
    by_cases hc : c = '<'
    · subst hc
      rw [tagReplGo, if_pos rfl, dropThroughCh_none.mpr (h1 rfl)]
    · rw [tagReplGo, if_neg hc, tagReplGo_id fuel h2]

theorem noEntPat_entityReplGo : ∀ (fuel : Nat) (s : Str), s.length ≤ fuel →
    NoEntPat (entityReplGo fuel s)
  | 0, s, h => by
    have : s = [] := List.length_eq_zero.mp (Nat.le_zero.mp h)
    subst this
    exact noEntPat_nil
  | _ + 1, [], _ => by
    rw [entityReplGo]; exact noEntPat_nil
  | fuel + 1, c :: rest, h => by
    have hlen : rest.length ≤ fuel := Nat.le_of_succ_le_succ (by simpa using h)
    by_cases hc : c = '&'
    · subst hc
      rw [entityReplGo, if_pos rfl]
      cases hsp : splitAtSemi rest with
      | some p =>
        obtain ⟨before, after⟩ := p
        have hdec := splitAtSemi_some hsp
        dsimp only
        by_cases hb : before = []
        · rw [if_pos hb]
          subst hb
          simp only [List.nil_append] at hdec
          refine noEntPat_cons.mpr ⟨fun _ => ?_, noEntPat_entityReplGo fuel rest hlen⟩
          subst hdec
          cases fuel with
          | zero => simp at hlen
          | succ f =>
            rw [entityReplGo, if_neg (by decide : ¬(';' = '&'))]
            exact Or.inl ⟨_, rfl⟩
        · rw [if_neg hb]
          have hlen2 : after.length ≤ fuel := by
            have : rest.length = before.length + 1 + after.length := by simp [hdec]; omega
            omega
          exact noEntPat_cons.mpr
            ⟨fun hcc => absurd hcc (by decide), noEntPat_entityReplGo fuel after hlen2⟩
      | none =>
        have hnm : ';' ∉ rest := splitAtSemi_none.mp hsp
        exact noEntPat_cons.mpr ⟨fun _ => Or.inr hnm, noEntPat_of_not_mem hnm⟩
    · rw [entityReplGo, if_neg hc]
      exact noEntPat_cons.mpr ⟨fun hcc => absurd hcc hc, noEntPat_entityReplGo fuel rest hlen⟩

theorem entityReplGo_id : ∀ (fuel : Nat) {s : Str}, NoEntPat s → entityReplGo fuel s = s
  | 0, _, _ => rfl
  | _ + 1, [], _ => by rw [entityReplGo]
  | fuel + 1, c :: rest, h => by
    obtain ⟨h1, h2⟩ := noEntPat_cons.mp h
    by_cases hc : c = '&'
    · subst hc
      rw [entityReplGo, if_pos rfl]
      rcases h1 rfl with ⟨u, hu⟩ | hnm
      · subst hu
        have : splitAtSemi (';' :: u) = some ([], u) := by
          rw [splitAtSemi, if_pos rfl]
        rw [this]
        dsimp only
        rw [if_pos rfl, entityReplGo_id fuel h2]
      · rw [splitAtSemi_none.mpr hnm]
    · rw [entityReplGo, if_neg hc, entityReplGo_id fuel h2]

end Rx

namespace Rx

theorem noTagPat_entityReplGo : ∀ (fuel : Nat) {s : Str}, NoTagPat s →
    NoTagPat (entityReplGo fuel s)
  | 0, _, h => h
  | _ + 1, [], _ => by rw [entityReplGo]; exact noTagPat_nil
  | fuel + 1, c :: rest, h => by
    obtain ⟨h1, h2⟩ := noTagPat_cons.mp h
    by_cases hc : c = '&'
    · subst hc
      rw [entityReplGo, if_pos rfl]
      cases hsp : splitAtSemi rest with
      | some p =>
        obtain ⟨before, after⟩ := p
        dsimp only
        by_cases hb : before = []
        · rw [if_pos hb]
          exact noTagPat_cons.mpr
            ⟨fun hcc => absurd hcc (by decide), noTagPat_entityReplGo fuel h2⟩
        · rw [if_neg hb]
          have hdec := splitAtSemi_some hsp
          have hafter : NoTagPat after := by
            have := (noTagPat_append (hdec ▸ h2)).2
            exact (noTagPat_cons.mp this).2
          exact noTagPat_cons.mpr
            ⟨fun hcc => absurd hcc (by decide), noTagPat_entityReplGo fuel hafter⟩
      | none => exact h
    · rw [entityReplGo, if_neg hc]
      refine noTagPat_cons.mpr ⟨fun hcc => ?_, noTagPat_entityReplGo fuel h2⟩
      intro hmem
      rcases mem_entityReplGo hmem with h3 | h3
      · exact h1 hcc h3
      · cases h3

theorem noTagPat_collapseGo : ∀ {s : Str} (b : Bool), NoTagPat s →
    NoTagPat (collapseGo b s)
  | [], b, _ => by rw [collapseGo]; exact noTagPat_nil
  | c :: rest, b, h => by
    obtain ⟨h1, h2⟩ := noTagPat_cons.mp h
    by_cases hc : isJsWs c
    · rw [collapseGo, if_pos hc]
      cases b with
      | true => exact noTagPat_collapseGo true h2
      | false =>
        simp only [Bool.false_eq_true, if_neg]
        exact noTagPat_cons.mpr
          ⟨fun hcc => absurd hcc (by decide), noTagPat_collapseGo true h2⟩
    · rw [collapseGo, if_neg hc]
      refine noTagPat_cons.mpr ⟨fun hcc => ?_, noTagPat_collapseGo false h2⟩
      intro hmem
      rcases mem_collapseGo hmem with h3 | h3
      · exact h1 hcc h3
      · cases h3

theorem noEntPat_collapseGo : ∀ {s : Str} (b : Bool), NoEntPat s →
    NoEntPat (collapseGo b s)
  | [], b, _ => by rw [collapseGo]; exact noEntPat_nil
  | c :: rest, b, h => by
    obtain ⟨h1, h2⟩ := noEntPat_cons.mp h
    by_cases hc : isJsWs c
    · rw [collapseGo, if_pos hc]
      cases b with
      | true => exact noEntPat_collapseGo true h2
      | false =>
        simp only [Bool.false_eq_true, if_neg]
        exact noEntPat_cons.mpr
          ⟨fun hcc => absurd hcc (by decide), noEntPat_collapseGo true h2⟩
    · rw [collapseGo, if_neg hc]
      refine noEntPat_cons.mpr ⟨fun hcc => ?_, noEntPat_collapseGo false h2⟩
      rcases h1 hcc with ⟨u, hu⟩ | hnm
      · subst hu
        rw [collapseGo, if_neg (by decide : ¬(isJsWs ';' = true))]
        exact Or.inl ⟨_, rfl⟩
      · refine Or.inr fun hmem => ?_
        rcases mem_collapseGo hmem with h3 | h3
        · exact hnm h3
        · cases h3

theorem jsTrimLeft_decomp (s : Str) : ∃ a, s = a ++ jsTrimLeft s :=
  ⟨s.takeWhile isJsWs, (List.takeWhile_append_dropWhile ..).symm⟩

theorem jsTrimRight_decomp (s : Str) : ∃ b, s = jsTrimRight s ++ b := by
  refine ⟨(s.reverse.takeWhile isJsWs).reverse, ?_⟩
  rw [jsTrimRight, ← List.reverse_append, List.takeWhile_append_dropWhile, List.reverse_reverse]

theorem jsTrim_decomp (s : Str) : ∃ a b, s = a ++ jsTrim s ++ b := by
  obtain ⟨a, ha⟩ := jsTrimLeft_decomp s
  obtain ⟨b, hb⟩ := jsTrimRight_decomp (jsTrimLeft s)
  refine ⟨a, b, ?_⟩
  conv_lhs => rw [ha, hb]
  simp [jsTrim, List.append_assoc]

theorem noTagPat_jsTrim {s : Str} (h : NoTagPat s) : NoTagPat (jsTrim s) := by
  obtain ⟨a, b, hab⟩ := jsTrim_decomp s
  rw [hab] at h
  exact (noTagPat_append (noTagPat_append h).1).2

theorem noEntPat_jsTrim {s : Str} (h : NoEntPat s) : NoEntPat (jsTrim s) := by
  obtain ⟨a, b, hab⟩ := jsTrim_decomp s
  rw [hab] at h
  exact (noEntPat_append (noEntPat_append h).1).2

end Rx

namespace Rx

/-- All whitespace in a collapsed string is the plain space character. -/
def OnlySp (s : Str) : Prop := ∀ c ∈ s, isJsWs c = true → c = ' '

/-- No two adjacent whitespace characters. -/
def NoWsRun : Str → Prop
  | [] => True
  | [_] => True
  | x :: y :: rest => ¬(isJsWs x = true ∧ isJsWs y = true) ∧ NoWsRun (y :: rest)

theorem noWsRun_tail {x : Char} {t : Str} (h : NoWsRun (x :: t)) : NoWsRun t := by
  cases t with
  | nil => trivial
  | cons y r => exact h.2

theorem noWsRun_cons_of {x : Char} {t : Str} (hx : isJsWs x = false) (ht : NoWsRun t) :
    NoWsRun (x :: t) := by
  cases t with
  | nil => trivial
  | cons y r =>
    refine ⟨fun hp => ?_, ht⟩
    rw [hx] at hp
    cases hp.1

theorem noWsRun_cons_hd {x : Char} {t : Str}
    (hhd : ∀ c, t.head? = some c → isJsWs c = false) (ht : NoWsRun t) :
    NoWsRun (x :: t) := by
  cases t with
  | nil => trivial
  | cons y r =>
    refine ⟨fun hp => ?_, ht⟩
    rw [hhd y rfl] at hp
    cases hp.2

theorem onlySp_collapseGo : ∀ {s : Str} (b : Bool), OnlySp (collapseGo b s)
  | [], b => by rw [collapseGo]; intro c hc; cases hc
  | c :: rest, b => by
    by_cases hc : isJsWs c
    · rw [collapseGo, if_pos hc]
      cases b with
      | true => exact onlySp_collapseGo true
      | false =>
        simp only [Bool.false_eq_true, if_neg]
        intro x hx hws
        rcases List.mem_cons.mp hx with h1 | h2
        · exact h1
        · exact onlySp_collapseGo true x h2 hws
    · rw [collapseGo, if_neg hc]
      intro x hx hws
      rcases List.mem_cons.mp hx with h1 | h2
      · exact absurd (h1 ▸ hws) (by simpa using hc)
      · exact onlySp_collapseGo false x h2 hws

theorem collapseGo_true_head : ∀ {s : Str} {c : Char},
    (collapseGo true s).head? = some c → isJsWs c = false
  | [], c, h => by rw [collapseGo] at h; cases h
  | x :: rest, c, h => by
    by_cases hx : isJsWs x
    · rw [collapseGo, if_pos hx, if_pos rfl] at h
      exact collapseGo_true_head h
    · rw [collapseGo, if_neg hx] at h
      cases h
      simpa using hx

theorem noWsRun_collapseGo : ∀ {s : Str} (b : Bool), NoWsRun (collapseGo b s)
  | [], b => by rw [collapseGo]; trivial
  | x :: rest, b => by
    by_cases hx : isJsWs x
    · rw [collapseGo, if_pos hx]
      cases b with
      | true => exact noWsRun_collapseGo true
      | false =>
        simp only [Bool.false_eq_true, if_neg]
        exact noWsRun_cons_hd (fun c hc => collapseGo_true_head hc) (noWsRun_collapseGo true)
    · rw [collapseGo, if_neg hx]
      exact noWsRun_cons_of (by simpa using hx) (noWsRun_collapseGo false)

theorem noWsRun_append {a b : Str} (h : NoWsRun (a ++ b)) : NoWsRun a ∧ NoWsRun b := by
  induction a with
  | nil => exact ⟨trivial, by simpa using h⟩
  | cons x a ih =>
    rw [List.cons_append] at h
    obtain ⟨h1, h2⟩ := ih (noWsRun_tail h)
    refine ⟨?_, h2⟩
    cases a with
    | nil => trivial
    | cons y r =>
      rw [List.cons_append] at h
      exact ⟨h.1, h1⟩

theorem onlySp_append {a b : Str} (h : OnlySp (a ++ b)) : OnlySp a ∧ OnlySp b :=
  ⟨fun c hc => h c (by simp [hc]), fun c hc => h c (by simp [hc])⟩

theorem collapseGo_id : ∀ {s : Str}, OnlySp s → NoWsRun s →
    collapseGo false s = s ∧
      ((∀ c, s.head? = some c → isJsWs c = false) → collapseGo true s = s)
  | [], _, _ => ⟨rfl, fun _ => rfl⟩
  | c :: rest, h1, h2 => by
    by_cases hc : isJsWs c
    · have hcsp : c = ' ' := h1 c (by simp) hc
      have hhd : ∀ x, rest.head? = some x → isJsWs x = false := by
        intro x hx
        cases rest with
        | nil => cases hx
        | cons y r =>
          cases hx
          by_contra hxx
          exact h2.1 ⟨hc, by simpa using hxx⟩
      have ih := collapseGo_id (onlySp_append (a := [c]) (by simpa using h1)).2
        (noWsRun_tail h2)
      constructor
      · rw [collapseGo, if_pos hc]
        simp only [Bool.false_eq_true, if_false]
        rw [ih.2 hhd, hcsp]
      · intro hhead
        exact absurd (hhead c rfl) (by simpa using hc)
    · have ih := collapseGo_id (onlySp_append (a := [c]) (by simpa using h1)).2
        (noWsRun_tail h2)
      constructor
      · rw [collapseGo, if_neg hc, ih.1]
      · intro _
        rw [collapseGo, if_neg hc, ih.1]

theorem jsTrimLeft_id {s : Str} (h : ∀ c, s.head? = some c → isJsWs c = false) :
    jsTrimLeft s = s := by
  cases s with
  | nil => rfl
  | cons c rest =>
    rw [jsTrimLeft, List.dropWhile_cons_of_neg (by simp [h c rfl])]

theorem jsTrimRight_id {s : Str} (h : ∀ c, s.getLast? = some c → isJsWs c = false) :
    jsTrimRight s = s := by
  rw [jsTrimRight]
  have hh : ∀ c, s.reverse.head? = some c → isJsWs c = false := by
    intro c hc
    exact h c (by rwa [List.head?_reverse] at hc)
  rw [show s.reverse.dropWhile isJsWs = s.reverse from jsTrimLeft_id hh, List.reverse_reverse]

theorem jsTrimRight_head {s : Str} {c : Char} (h : (jsTrimRight s).head? = some c) :
    s.head? = some c := by
  obtain ⟨b, hb⟩ := jsTrimRight_decomp s
  rw [hb, List.head?_append, h]
  rfl

theorem jsTrim_head {s : Str} {c : Char} (h : (jsTrim s).head? = some c) :
    isJsWs c = false := by
  rw [jsTrim] at h
  have h2 := jsTrimRight_head h
  cases hs : jsTrimLeft s with
  | nil => rw [hs] at h2; cases h2
  | cons x rest =>
    rw [hs] at h2
    cases h2
    have := List.head?_dropWhile_not isJsWs s
    rw [jsTrimLeft] at hs
    rw [hs] at this
    simpa using this

theorem jsTrim_getLast {s : Str} {c : Char} (h : (jsTrim s).getLast? = some c) :
    isJsWs c = false := by
  rw [jsTrim, jsTrimRight, List.getLast?_reverse] at h
  have := List.head?_dropWhile_not isJsWs (jsTrimLeft s).reverse
  rw [h] at this
  simpa using this

end Rx

namespace Rx

theorem tagRepl_id {s : Str} (h : NoTagPat s) : tagRepl s = s := tagReplGo_id _ h

theorem entityRepl_id {s : Str} (h : NoEntPat s) : entityRepl s = s := entityReplGo_id _ h

theorem cleanText_self (s : Str) :
    NoTagPat (cleanText s) ∧ NoEntPat (cleanText s) ∧
      OnlySp (cleanText s) ∧ NoWsRun (cleanText s) := by
  have ht1 : NoTagPat (tagRepl s) := noTagPat_tagReplGo s.length s le_rfl
  have ht2 : NoTagPat (entityRepl (tagRepl s)) := noTagPat_entityReplGo _ ht1
  have ht3 : NoTagPat (collapseWs (entityRepl (tagRepl s))) := noTagPat_collapseGo _ ht2
  have he1 : NoEntPat (entityRepl (tagRepl s)) :=
    noEntPat_entityReplGo (tagRepl s).length (tagRepl s) le_rfl
  have he2 : NoEntPat (collapseWs (entityRepl (tagRepl s))) := noEntPat_collapseGo _ he1
  have hsp : OnlySp (collapseWs (entityRepl (tagRepl s))) := onlySp_collapseGo _
  have hwr : NoWsRun (collapseWs (entityRepl (tagRepl s))) := noWsRun_collapseGo _
  obtain ⟨a, b, hab⟩ := jsTrim_decomp (collapseWs (entityRepl (tagRepl s)))
  refine ⟨noTagPat_jsTrim ht3, noEntPat_jsTrim he2, ?_, ?_⟩
  · rw [hab] at hsp
    exact (onlySp_append (onlySp_append hsp).1).2
  · rw [hab] at hwr
    exact (noWsRun_append (noWsRun_append hwr).1).2

theorem cleanText_fixed {w : Str} (ht : NoTagPat w) (he : NoEntPat w)
    (hsp : OnlySp w) (hwr : NoWsRun w)
    (hhd : ∀ c, w.head? = some c → isJsWs c = false)
    (hls : ∀ c, w.getLast? = some c → isJsWs c = false) :
    cleanText w = w := by
  rw [cleanText, tagRepl_id ht, entityRepl_id he, collapseWs, (collapseGo_id hsp hwr).1,
    jsTrim, jsTrimLeft_id hhd, jsTrimRight_id hls]

end Rx

/-- Result record shared by all three extractor variants
(`ArticleContent` in the sources). -/
structure ArticleContent where
  title : Str
  content : Str
  author : Option Str
  publishedDate : Option Str
deriving DecidableEq, Repr

namespace Rx

/-- Strip a case-insensitive literal (regex `i` flag) from the front,
returning the remainder. -/
def stripCI : Str → Str → Option Str
  | [], s => some s
  | _ :: _, [] => none
  | p :: ps, c :: cs => if eqCI p c then stripCI ps cs else none

/-- Split at the first occurrence of `ch`: `some (before, after)` with
`s = before ++ ch :: after` and `ch ∉ before`. -/
def splitAtCh (ch : Char) : Str → Option (Str × Str)
  | [] => none
  | x :: xs =>
    if x = ch then some ([], xs)
    else
      match splitAtCh ch xs with
      | some (a, b) => some (x :: a, b)
      | none => none

/-- First occurrence of a case-insensitive literal: `some (before, after)`
where the literal starts right after `before`. -/
def findLitCI (pat : Str) : Str → Option (Str × Str)
  | [] => (stripCI pat []).map (fun after => (([] : Str), after))
  | s@(c :: rest) =>
    match stripCI pat s with
    | some after => some ([], after)
    | none => (findLitCI pat rest).map (fun p => (c :: p.1, p.2))

/-- Try `f` on each element, keeping the first success (regex backtracking
over a candidate list). -/
def firstSome {α β : Type} (f : α → Option β) : List α → Option β
  | [] => none
  | x :: xs =>
    match f x with
    | some y => some y
    | none => firstSome f xs

/-- Suffixes of `s` starting within its first `n` positions at which the
case-insensitive literal `pat` matches; these are the positions the greedy
`[^>]*` can hand to the rest of the pattern (all lie before the first `>`). -/
def candList (pat : Str) : Nat → Str → List Str
  | _, [] => []
  | 0, _ => []
  | n + 1, s@(_ :: rest) =>
    (if (stripCI pat s).isSome then [s] else []) ++ candList pat n rest

/-- Word-boundary test between adjacent characters (`\b` holds where word-ness
changes). -/
def wordB (a b : Char) : Bool := isWordChar a != isWordChar b

/-- Does `\b cls \b` (case-insensitive) occur in this attribute value?  `prev`
is the character just before the scan position (initially the opening quote);
when the match ends at the end of the value the following character is the
closing quote. -/
def hasWBTokenCI (cls : Str) : Char → Str → Bool
  | _, [] => false
  | prev, s@(c :: rest) =>
    ((wordB prev (cls.headD ' ')) &&
      (match stripCI cls s with
       | some after => wordB (cls.getLastD ' ') (after.headD '"')
       | none => false))
    || hasWBTokenCI cls c rest

/-- Match of `</[^>]*>` at the earliest position of the input (the
continuation of a non-greedy `.*?`): `some (skipped, after)` where `skipped`
precedes the `</` and `after` follows the first `>` closing it.  When a `</`
has no later `>`, no later close can complete either. -/
def firstCloseAny : Str → Option (Str × Str)
  | [] => none
  | c :: rest =>
    if c = '<' then
      match rest with
      | '/' :: r2 =>
        (dropThroughCh '>' r2).map (fun after => (([] : Str), after))
      | _ => (firstCloseAny rest).map (fun p => (c :: p.1, p.2))
    else (firstCloseAny rest).map (fun p => (c :: p.1, p.2))

/-- Split at the last `</`: `some (inner, tail)` with
`input = inner ++ '<' :: '/' :: tail`. -/
def lastCloseSplit : Str → Option (Str × Str)
  | [] => none
  | c :: rest =>
    match lastCloseSplit rest with
    | some (i, t) => some (c :: i, t)
    | none =>
      if c = '<' then
        match rest with
        | '/' :: t => some ([], t)
        | _ => none
      else none

/-- Group 1 of `^<[^>]*>(.*)<\/[^>]*>$` applied to a full element match (the
inner-HTML extraction used on matched sections); returns the input unchanged
when the pattern fails, as the source does.  The anchored greedy `(.*)` makes
the close the last `</` whose tail `[^>]*>` reaches the end. -/
def innerExtract (m : Str) : Str :=
  match m with
  | '<' :: rest =>
    match dropThroughCh '>' rest with
    | some rest1 =>
      match lastCloseSplit rest1 with
      | some (inner, tail) =>
        match tail.reverse with
        | '>' :: xr => if '>' ∈ xr then m else inner
        | _ => m
      | none => m
    | none => m
  | _ => m

end Rx

namespace Rx

/-- Match of `<TAG[^>]*>(.*?)</TAG>` (flags `gis`) starting exactly here:
`some (fullMatch, after)`. -/
def tagMatchAt (tag : Str) (s : Str) : Option (Str × Str) :=
  match stripCI ('<' :: tag) s with
  | none => none
  | some afterLit =>
    match dropThroughCh '>' afterLit with
    | none => none
    | some afterOpen =>
      match findLitCI ('<' :: '/' :: (tag ++ ['>'])) afterOpen with
      | none => none
      | some (_, afterClose) =>
        some (s.take (s.length - afterClose.length), afterClose)

/-- Global scan collecting all matches of the tag pattern (`String.match` with
`g`), resuming after each match. -/
def tagScanGo (tag : Str) : Nat → Str → List Str
  | 0, _ => []
  | _ + 1, [] => []
  | fuel + 1, s@(_ :: rest) =>
    match tagMatchAt tag s with
    | some (m, after) => m :: tagScanGo tag fuel after
    | none => tagScanGo tag fuel rest

/-- All matches of `<TAG[^>]*>(.*?)</TAG>`. -/
def tagMatches (tag : Str) (s : Str) : List Str := tagScanGo tag s.length s

/-- Global replacement of the tag pattern by the empty string
(`removeUnwantedElements`, tag loop). -/
def tagRemoveGo (tag : Str) : Nat → Str → Str
  | 0, s => s
  | _ + 1, [] => []
  | fuel + 1, s@(c :: rest) =>
    match tagMatchAt tag s with
    | some (_, after) => tagRemoveGo tag fuel after
    | none => c :: tagRemoveGo tag fuel rest

/-- `.replace(/<TAG[^>]*>.*?<\/TAG>/gis, '')`. -/
def tagRemove (tag : Str) (s : Str) : Str := tagRemoveGo tag s.length s

/-- One backtracking candidate of the class-attribute head: `cand` starts at a
possible `class="`; on success returns the rest after the whole match
(`[^"]*\bCLS\b[^"]*"[^>]*>(.*?)</[^>]*>`). -/
def classTryCand (cls : Str) (cand : Str) : Option Str :=
  match stripCI "class=\"".data cand with
  | none => none
  | some valRest =>
    match splitAtCh '"' valRest with
    | none => none
    | some (value, afterQuote) =>
      if hasWBTokenCI cls '"' value then
        match dropThroughCh '>' afterQuote with
        | none => none
        | some headEnd =>
          match firstCloseAny headEnd with
          | none => none
          | some (_, afterClose) => some afterClose
      else none

/-- Match of `<[^>]*class="[^"]*\bCLS\b[^"]*"[^>]*>(.*?)</[^>]*>` (`gis`)
starting exactly here.  The greedy `[^>]*` tries the rightmost `class="`
before the first `>` first and backtracks leftwards. -/
def classMatchAt (cls : Str) (s : Str) : Option (Str × Str) :=
  match s with
  | '<' :: tail =>
    match splitAtCh '>' tail with
    | none => none
    | some (zone, _) =>
      (firstSome (classTryCand cls) (candList "class=\"".data zone.length tail).reverse).map
        (fun after => (s.take (s.length - after.length), after))
  | _ => none

/-- Global scan collecting all matches of the class pattern. -/
def classScanGo (cls : Str) : Nat → Str → List Str
  | 0, _ => []
  | _ + 1, [] => []
  | fuel + 1, s@(_ :: rest) =>
    match classMatchAt cls s with
    | some (m, after) => m :: classScanGo cls fuel after
    | none => classScanGo cls fuel rest

/-- All matches of the class pattern. -/
def classMatches (cls : Str) (s : Str) : List Str := classScanGo cls s.length s

/-- Global replacement of the class pattern by the empty string
(`removeUnwantedElements`, class loop). -/
def classRemoveGo (cls : Str) : Nat → Str → Str
  | 0, s => s
  | _ + 1, [] => []
  | fuel + 1, s@(c :: rest) =>
    match classMatchAt cls s with
    | some (_, after) => classRemoveGo cls fuel after
    | none => c :: classRemoveGo cls fuel rest

/-- `.replace(/<[^>]*class="[^"]*\bCLS\b[^"]*"[^>]*>.*?<\/[^>]*>/gis, '')`. -/
def classRemove (cls : Str) (s : Str) : Str := classRemoveGo cls s.length s

/-- Match of `<[^>]*ATTR="VAL"[^>]*>(.*?)</[^>]*>` starting exactly here
(`[role="main"]` branch of `findContentSections`).  The attribute literal must
lie before the first `>`, after which the head necessarily ends at that same
`>`. -/
def attrMatchAt (lit : Str) (s : Str) : Option (Str × Str) :=
  match s with
  | '<' :: tail =>
    match splitAtCh '>' tail with
    | none => none
    | some (zone, afterZone) =>
      if (candList lit zone.length tail).isEmpty then none
      else
        match firstCloseAny afterZone with
        | none => none
        | some (_, afterClose) =>
          some (s.take (s.length - afterClose.length), afterClose)
  | _ => none

/-- Global scan collecting all matches of the attribute pattern. -/
def attrScanGo (lit : Str) : Nat → Str → List Str
  | 0, _ => []
  | _ + 1, [] => []
  | fuel + 1, s@(_ :: rest) =>
    match attrMatchAt lit s with
    | some (m, after) => m :: attrScanGo lit fuel after
    | none => attrScanGo lit fuel rest

/-- All matches of the attribute pattern. -/
def attrMatches (lit : Str) (s : Str) : List Str := attrScanGo lit s.length s

/-- Match of `<h[1-6][^>]*>` at the start. -/
def stripHOpen (s : Str) : Option Str :=
  match s with
  | a :: b :: c :: rest =>
    if a = '<' && eqCI 'h' b && decide ('1' ≤ c) && decide (c ≤ '6') then
      dropThroughCh '>' rest
    else none
  | _ => none

/-- Match of `</h[1-6]>` at the start (the closing digit is independent of the
opening one). -/
def stripHClose (s : Str) : Option Str :=
  match s with
  | a :: b :: c :: d :: e :: rest =>
    if a = '<' && b = '/' && eqCI 'h' c && decide ('1' ≤ d) && decide (d ≤ '6') && e = '>' then
      some rest
    else none
  | _ => none

/-- First `</h[1-6]>` in the input: `some (before, after)`. -/
def findHClose : Str → Option (Str × Str)
  | [] => none
  | s@(c :: rest) =>
    match stripHClose s with
    | some after => some ([], after)
    | none => (findHClose rest).map (fun p => (c :: p.1, p.2))

/-- Match of `<h[1-6][^>]*>(.*?)</h[1-6]>` (`gis`) starting exactly here. -/
def hMatchAt (s : Str) : Option (Str × Str) :=
  match stripHOpen s with
  | none => none
  | some afterOpen =>
    match findHClose afterOpen with
    | none => none
    | some (_, after) => some (s.take (s.length - after.length), after)

/-- Global scan collecting all heading matches. -/
def hScanGo : Nat → Str → List Str
  | 0, _ => []
  | _ + 1, [] => []
  | fuel + 1, s@(_ :: rest) =>
    match hMatchAt s with
    | some (m, after) => m :: hScanGo fuel after
    | none => hScanGo fuel rest

/-- All matches of `<h[1-6][^>]*>(.*?)</h[1-6]>`. -/
def hMatches (s : Str) : List Str := hScanGo s.length s

end Rx

namespace Rx

/-- Tag names removed by `removeUnwantedElements`. -/
def unwantedTags : List Str :=
  ["script", "style", "nav", "header", "footer", "aside", "iframe", "object",
    "embed"].map String.data

/-- Class names removed by `removeUnwantedElements` (matched with `\b` word
boundaries inside the `class` attribute value). -/
def unwantedClasses : List Str :=
  ["sidebar", "navigation", "menu", "advertisement", "ads", "social",
    "comments", "related", "recommended", "popup", "modal"].map String.data

/-- `removeUnwantedElements` (fetcher.ts lines 85-108): first the tag loop,
then the class loop, each a global replace by the empty string. -/
def removeUnwantedElements (html : Str) : Str :=
  unwantedClasses.foldl (fun acc cls => classRemove cls acc)
    (unwantedTags.foldl (fun acc tag => tagRemove tag acc) html)

/-- `findContentSections` (fetcher.ts lines 110-152): for each selector in
order, all matches of the derived regex, each mapped through the inner-HTML
extraction.  Selector parsing: `.post` and the like use the class regex,
`[role="main"]` the attribute regex, bare names the tag regex. -/
def findContentSections (html : Str) : List Str :=
  ((tagMatches "article".data html) ++
   (tagMatches "main".data html) ++
   (attrMatches "role=\"main\"".data html) ++
   (classMatches "post".data html) ++
   (classMatches "entry".data html) ++
   (classMatches "content".data html) ++
   (classMatches "article".data html) ++
   (classMatches "story".data html)).map innerExtract

/-- Count of matches of `<p[^>]*>` (`gi`), used by the scoring. -/
def countOpenTagGo (tag : Str) : Nat → Str → Nat
  | 0, _ => 0
  | _ + 1, [] => 0
  | fuel + 1, s@(_ :: rest) =>
    match stripCI ('<' :: tag) s with
    | some afterLit =>
      match dropThroughCh '>' afterLit with
      | some after => 1 + countOpenTagGo tag fuel after
      | none => 0
    | none => countOpenTagGo tag fuel rest

/-- Count of matches of `<h[1-6][^>]*>` (`gi`). -/
def countHOpenGo : Nat → Str → Nat
  | 0, _ => 0
  | _ + 1, [] => 0
  | fuel + 1, s@(_ :: rest) =>
    match stripHOpen s with
    | some after => 1 + countHOpenGo fuel after
    | none => countHOpenGo fuel rest

/-- `scoreSectionContent` (fetcher.ts lines 177-190), scaled by ten so that
the JavaScript weights 0.1 / 5 / 10 / 5 / 2 become the integers
1 / 50 / 100 / 50 / 20; the scaling is order-preserving.  (The source computes
in floating point; at every comparison performed in this file the scores are
far enough apart that rounding cannot change the order.) -/
def scoreSectionContent (sec : Str) : Int :=
  let text := cleanText sec
  let score1 : Int := text.length
  let score2 : Int := 50 * (text.countP (· = '.') : Int)
  let score3 : Int := 100 * (countOpenTagGo ['p'] text.length text : Int)
  let score4 : Int := 50 * (countHOpenGo text.length text : Int)
  let shortSentences : Int :=
    ((text.splitOn '.').countP (fun t => decide ((jsTrim t).length < 20)) : Int)
  score1 + score2 + score3 + score4 - 20 * shortSentences

/-- `selectBestContentSection` (fetcher.ts lines 168-175): stable descending
sort by score and take the head — the earliest section attaining the maximal
score — with the source's `|| sections[0]` fallback kicking in when that
section is the empty string. -/
def selectBestContentSection (sections : List Str) : Str :=
  match sections with
  | [] => []
  | s0 :: restS =>
    let best := (s0 :: restS).foldl
      (fun acc x => if scoreSectionContent x > scoreSectionContent acc then x else acc) s0
    if best = [] then s0 else best

/-- `extractTextFromSection` (fetcher.ts lines 192-208): headings, paragraphs
and list items of the section, inner-extracted, cleaned, kept when longer than
ten characters and space-joined; otherwise the cleaned section itself. -/
def extractTextFromSection (sec : Str) : Str :=
  let paragraphs := tagMatches ['p'] sec
  let headings := hMatches sec
  let lists := tagMatches ['l', 'i'] sec
  let extractedTexts :=
    (((headings ++ paragraphs ++ lists).map innerExtract).map cleanText).filter
      (fun t => decide (t.length > 10))
  if extractedTexts.length > 0 then joinSp extractedTexts
  else cleanText sec

/-- `extractAllText` (fetcher.ts lines 210-212). -/
def extractAllText (html : Str) : Str := cleanText (tagRepl html)

/-- `fallbackContentExtraction` (fetcher.ts lines 154-166): paragraphs then
headings, each cleaned, kept when longer than thirty characters, space-joined;
when that is empty, all text of the page. -/
def fallbackContentExtraction (html : Str) : Str :=
  let paragraphs := tagMatches ['p'] html
  let headings := hMatches html
  let textContent :=
    joinSp
      (((paragraphs ++ headings).map cleanText).filter (fun t => decide (t.length > 30)))
  if textContent = [] then extractAllText html else textContent

/-- `extractMainContent` (fetcher.ts lines 73-83). -/
def extractMainContent (html : Str) : Str :=
  let cleanedHtml := removeUnwantedElements html
  let contentSections := findContentSections cleanedHtml
  if contentSections.length = 0 then fallbackContentExtraction cleanedHtml
  else extractTextFromSection (selectBestContentSection contentSections)

/-- Group 1 of the first match of `<TAG[^>]*>(.*?)</TAG>` (flags `is`), or
`none`. -/
def findTagInnerGo (tag : Str) : Nat → Str → Option Str
  | 0, _ => none
  | _ + 1, [] => none
  | fuel + 1, s@(_ :: rest) =>
    match stripCI ('<' :: tag) s with
    | some afterLit =>
      match dropThroughCh '>' afterLit with
      | some afterOpen =>
        match findLitCI ('<' :: '/' :: (tag ++ ['>'])) afterOpen with
        | some (inner, _) => some inner
        | none => findTagInnerGo tag fuel rest
      | none => findTagInnerGo tag fuel rest
    | none => findTagInnerGo tag fuel rest

/-- First tag match over the whole input. -/
def findTagInner (tag : Str) (html : Str) : Option Str :=
  findTagInnerGo tag html.length html

/-- `extractTitle` (fetcher.ts lines 27-39): first `<title>` inner text if the
element matches, else first `<h1>` inner text, else empty — the `<title>`
branch wins even when its captured text is empty. -/
def extractTitle (html : Str) : Str :=
  match findTagInner "title".data html with
  | some inner => cleanText inner
  | none =>
    match findTagInner "h1".data html with
    | some inner => cleanText inner
    | none => []

/-- Match of `<meta\s+ATTRLIT[^>]*content="([^"]*)"` (flag `i`) starting
exactly here, returning the captured group.  The greedy `[^>]*` selects the
rightmost `content="` before the first `>` (or before the end) whose value has
a closing quote. -/
def metaMatchAt (attrLit : Str) (s : Str) : Option Str :=
  match stripCI "<meta".data s with
  | none => none
  | some afterMeta =>
    if afterMeta.takeWhile isJsWs = [] then none
    else
      match stripCI attrLit (afterMeta.dropWhile isJsWs) with
      | none => none
      | some afterAttr =>
        let zoneLen :=
          match splitAtCh '>' afterAttr with
          | some (zone, _) => zone.length
          | none => afterAttr.length
        firstSome
          (fun cand =>
            match stripCI "content=\"".data cand with
            | none => none
            | some afterLit =>
              match splitAtCh '"' afterLit with
              | some (v, _) => some v
              | none => none)
          (candList "content=\"".data zoneLen afterAttr).reverse

/-- First meta match over the whole input (`String.match`, non-global). -/
def findMetaGo (attrLit : Str) : Nat → Str → Option Str
  | 0, _ => none
  | _ + 1, [] => none
  | fuel + 1, s@(_ :: rest) =>
    match metaMatchAt attrLit s with
    | some v => some v
    | none => findMetaGo attrLit fuel rest

/-- First meta match over the whole input. -/
def findMeta (attrLit : Str) (html : Str) : Option Str :=
  findMetaGo attrLit html.length html

/-- `extractMetaContent` (fetcher.ts lines 58-71): first selector whose regex
matches wins; the selector strings parse to the attribute literals below
(`includes('name=')` picks the attribute name, the quoted part the value). -/
def extractMetaContent (html : Str) (attrLits : List Str) : Option Str :=
  match attrLits with
  | [] => none
  | l :: ls =>
    match findMeta l html with
    | some v => some v
    | none => extractMetaContent html ls

/-- Attribute literals of the author selector list
`meta[name="author"], meta[property="article:author"], meta[name="twitter:creator"]`. -/
def authorAttrLits : List Str :=
  ["name=\"author\"", "property=\"article:author\"", "name=\"twitter:creator\""].map
    String.data

/-- Attribute literals of the date selector list. -/
def dateAttrLits : List Str :=
  ["property=\"article:published_time\"", "name=\"date\"",
    "property=\"article:published\"", "name=\"pubdate\""].map String.data

/-- `extractMetadata` (fetcher.ts lines 41-56): author and date meta lookups. -/
def extractMetadata (html : Str) : Option Str × Option Str :=
  (extractMetaContent html authorAttrLits, extractMetaContent html dateAttrLits)

/-- `extractContent` of the regex-based `ArticleFetcher` (fetcher.ts lines
14-25): title, metadata and main content assembled into the result record. -/
def extractContent (html : Str) : ArticleContent :=
  ⟨extractTitle html, extractMainContent html,
    (extractMetadata html).1, (extractMetadata html).2⟩

end Rx

namespace Dom

/-- Modelled from the spec: the DOM tree handed over by the external parsing
library (spec §6: "a tree supporting `querySelector(selector)`,
`querySelectorAll(selector)`, per-element `.textContent`,
`.getAttribute(name)`, `.remove()`, `.innerHTML` get/set, and
`.compareDocumentPosition()`").  An element carries its tag name, attribute
list and children; text nodes carry character data. -/
inductive Node where
  | elem : Str → List (Str × Str) → List Node → Node
  | text : Str → Node

/-- A document is the list of its top-level nodes. -/
abbrev Forest := List Node

/-- Attribute lookup (`getAttribute`): first binding wins. -/
def getAttr (attrs : List (Str × Str)) (name : Str) : Option Str :=
  match attrs with
  | [] => none
  | (k, v) :: rest => if k = name then some v else getAttr rest name

/-- Attributes of a node (empty for text nodes). -/
def attrsOf : Node → List (Str × Str)
  | Node.elem _ a _ => a
  | Node.text _ => []

/-- Class-attribute tokenization: split on ASCII whitespace, drop empties
(the DOM `classList` semantics used by the `.cls` selector). -/
def classTokens (v : Str) : List Str :=
  (v.splitOnP (fun c => isJsWs c)).filter (fun t => !t.isEmpty)

/-- The simple selectors the three variants use. -/
inductive Sel where
  | tag : Str → Sel
  | cls : Str → Sel
  | attrEq : Str → Str → Sel
  | tagAttrEq : Str → Str → Str → Sel
  | tagCls : Str → Str → Sel
  | tagAttrSub : Str → Str → Str → Sel

/-- Modelled from the spec: CSS matching of the selector forms used by the
sources — tag name equality, class-token membership for `.c`, attribute
equality for `[a="v"]`, and attribute-substring for `[a*="v"]`. -/
def matchesSel (s : Sel) (n : Node) : Bool :=
  match n with
  | Node.text _ => false
  | Node.elem t attrs _ =>
    match s with
    | Sel.tag name => t = name
    | Sel.cls c => (classTokens ((getAttr attrs "class".data).getD [])).contains c
    | Sel.attrEq a v => getAttr attrs a = some v
    | Sel.tagAttrEq name a v => t = name && getAttr attrs a = some v
    | Sel.tagCls name c =>
      t = name && (classTokens ((getAttr attrs "class".data).getD [])).contains c
    | Sel.tagAttrSub name a v =>
      t = name &&
        match getAttr attrs a with
        | some av => subStrB v av
        | none => false

mutual

/-- Nodes of a subtree in document (pre-order) order. -/
def preNodes : Node → List Node
  | Node.text s => [Node.text s]
  | Node.elem t a cs => Node.elem t a cs :: preNodesList cs

/-- Nodes of a forest in document order. -/
def preNodesList : Forest → List Node
  | [] => []
  | n :: ns => preNodes n ++ preNodesList ns

end

/-- `querySelector` with the matched node's document-order position (used to
model `compareDocumentPosition`: the `FOLLOWING` bit of
`a.compareDocumentPosition(b)` is set exactly when `b`'s pre-order position is
strictly greater than `a`'s). -/
def qsIdx (d : Forest) (s : Sel) : Option (Nat × Node) :=
  (preNodesList d).enum.find? (fun p => matchesSel s p.2)

/-- `querySelector`: first match in document order. -/
def qs (d : Forest) (s : Sel) : Option Node := (qsIdx d s).map Prod.snd

/-- `querySelectorAll` with a selector list (comma): all matches of any listed
selector, in document order. -/
def qsa (d : Forest) (sels : List Sel) : List Node :=
  (preNodesList d).filter (fun n => sels.any (fun s => matchesSel s n))

/-- Children of a node. -/
def elemKids : Node → Forest
  | Node.text _ => []
  | Node.elem _ _ cs => cs

/-- Element-scoped `querySelectorAll`: descendants only. -/
def qsaIn (e : Node) (sels : List Sel) : List Node := qsa (elemKids e) sels

mutual

/-- `textContent`: concatenated character data of the subtree. -/
def textContent : Node → Str
  | Node.text s => s
  | Node.elem _ _ cs => textContentList cs

/-- `textContent` of a forest. -/
def textContentList : Forest → Str
  | [] => []
  | n :: ns => textContent n ++ textContentList ns

end

mutual

/-- Removal of every element matching one of the selectors, together with its
subtree (`querySelectorAll` snapshot + `remove()` per element: removing a
parent detaches its descendants, so a single pruning pass gives the same
tree). -/
def pruneNode (sels : List Sel) : Node → Option Node
  | Node.text s => some (Node.text s)
  | Node.elem t a cs =>
    if sels.any (fun s => matchesSel s (Node.elem t a cs)) then none
    else some (Node.elem t a (pruneList sels cs))

/-- Pruning over a forest. -/
def pruneList (sels : List Sel) : Forest → Forest
  | [] => []
  | n :: ns =>
    match pruneNode sels n with
    | some n2 => n2 :: pruneList sels ns
    | none => pruneList sels ns

end

/-- Sequential per-selector removal loops of the sources
(`for (const selector of selectors) { ...querySelectorAll(selector)...remove() }`). -/
def removeBySelList (sels : List Sel) (d : Forest) : Forest :=
  sels.foldl (fun acc s => pruneList [s] acc) d

/-- Text-node escaping of the serializer (`innerHTML` read). -/
def escTextChar (c : Char) : Str :=
  if c = '&' then "&amp;".data
  else if c = '<' then "&lt;".data
  else if c = '>' then "&gt;".data
  else [c]

/-- Attribute-value escaping of the serializer. -/
def escAttrChar (c : Char) : Str :=
  if c = '&' then "&amp;".data
  else if c = '"' then "&quot;".data
  else [c]

/-- HTML void elements: serialized without a closing tag. -/
def voidTags : List Str :=
  ["area", "base", "br", "col", "embed", "hr", "img", "input", "link", "meta",
    "param", "source", "track", "wbr"].map String.data

/-- Serialized attribute list. -/
def serializeAttrs : List (Str × Str) → Str
  | [] => []
  | (k, v) :: rest =>
    ' ' :: (k ++ '=' :: '"' :: (v.map escAttrChar).flatten ++ ['"']) ++ serializeAttrs rest

mutual

/-- Modelled from the spec: HTML serialization performed by the library's
`innerHTML` getter (spec §6: "serialized-HTML read/write on any node"). -/
def serializeNode : Node → Str
  | Node.text s => (s.map escTextChar).flatten
  | Node.elem t attrs cs =>
    '<' :: (t ++ serializeAttrs attrs) ++ ['>'] ++
      (if voidTags.contains t then []
       else serializeList cs ++ ('<' :: '/' :: t ++ ['>']))

/-- Serialization of a forest. -/
def serializeList : Forest → Str
  | [] => []
  | n :: ns => serializeNode n ++ serializeList ns

end

/-- `innerHTML` of an element: serialization of its children. -/
def innerHTML : Node → Str
  | Node.text s => (s.map escTextChar).flatten
  | Node.elem _ _ cs => serializeList cs

/-- Named character references decoded by the model of the entity round-trip
(the common ones; each decodes to a non-alphanumeric character). -/
def entityTable : List (Str × Char) :=
  [("amp".data, '&'), ("lt".data, '<'), ("gt".data, '>'), ("quot".data, '"'),
    ("apos".data, '\''), ("nbsp".data, Char.ofNat 160)]

/-- Table lookup for a reference name. -/
def lookupEnt : List (Str × Char) → Str → Option Char
  | [], _ => none
  | (k, v) :: rest, name => if k = name then some v else lookupEnt rest name

/-- A reference at the head of the input: maximal letter run, a semicolon, a
known name. -/
def grabEntity (rest : Str) : Option (Char × Str) :=
  match rest.dropWhile Char.isAlpha with
  | ';' :: after =>
    match lookupEnt entityTable (rest.takeWhile Char.isAlpha) with
    | some ch => some (ch, after)
    | none => none
  | _ => none

/-- Decoding worker. -/
def decodeEntitiesGo : Nat → Str → Str
  | 0, s => s
  | _ + 1, [] => []
  | fuel + 1, c :: rest =>
    if c = '&' then
      match grabEntity rest with
      | some (ch, after) => ch :: decodeEntitiesGo fuel after
      | none => c :: decodeEntitiesGo fuel rest
    else c :: decodeEntitiesGo fuel rest

/-- Modelled from the spec: the HTML-entity decoding performed by the
detached-element `innerHTML` → `textContent` round-trip of the external DOM
library (spec §4.5), on the tag-free strings the variants feed it. -/
def decodeEntities (s : Str) : Str := decodeEntitiesGo s.length s

/-- `cleanText` of the DOM-based variants (fetcher.ts lines 506-512 and
part_001 lines 150-158): entity decoding round-trip, whitespace collapse,
trim. -/
def cleanTextDom (s : Str) : Str := jsTrim (collapseWs (decodeEntities s))

/-- Worker for `.replace(/\s*&\s*/g, ' ')`: at each position a whitespace run
followed by `&` (and its trailing whitespace) collapses to one space. -/
def ampReplGo : Nat → Str → Str
  | 0, s => s
  | _ + 1, [] => []
  | fuel + 1, s@(c :: rest) =>
    match s.dropWhile isJsWs with
    | '&' :: r2 => ' ' :: ampReplGo fuel (r2.dropWhile isJsWs)
    | _ => c :: ampReplGo fuel rest

/-- `.replace(/\s*&\s*/g, ' ')`. -/
def ampRepl (s : Str) : Str := ampReplGo s.length s

/-- `cleanContentText` (part_001 lines 160-166): `cleanText`, then stray
ampersand removal, whitespace collapse and trim. -/
def cleanContentText (s : Str) : Str := jsTrim (collapseWs (ampRepl (cleanTextDom s)))

/-- First selector of the list with a match (the shared content-selector
loop shape). -/
def firstSelMatch (d : Forest) : List Sel → Option Node
  | [] => none
  | s :: rest =>
    match qs d s with
    | some e => some e
    | none => firstSelMatch d rest

/-- `UNWANTED_SELECTORS` as selectors. -/
def unwantedTagSels : List Sel :=
  (["script", "style", "nav", "header", "footer", "aside", "iframe", "object",
    "embed"].map String.data).map Sel.tag

/-- `UNWANTED_CLASSES` as selectors (`.cls`). -/
def unwantedClassSels : List Sel :=
  (["sidebar", "navigation", "menu", "advertisement", "ads", "social",
    "comments", "related", "recommended", "popup", "modal"].map String.data).map Sel.cls

/-- `CONTENT_SELECTORS` in priority order. -/
def contentSels : List Sel :=
  [Sel.tag "article".data, Sel.tag "main".data,
    Sel.attrEq "role".data "main".data, Sel.cls "post".data,
    Sel.cls "entry".data, Sel.cls "content".data, Sel.cls "article".data,
    Sel.cls "story".data]

/-- `AUTHOR_SELECTORS`. -/
def authorSels : List Sel :=
  [Sel.tagAttrEq "meta".data "name".data "author".data,
    Sel.tagAttrEq "meta".data "property".data "article:author".data,
    Sel.tagAttrEq "meta".data "name".data "twitter:creator".data]

/-- `DATE_SELECTORS`. -/
def dateSels : List Sel :=
  [Sel.tagAttrEq "meta".data "property".data "article:published_time".data,
    Sel.tagAttrEq "meta".data "name".data "date".data,
    Sel.tagAttrEq "meta".data "property".data "article:published".data,
    Sel.tagAttrEq "meta".data "name".data "pubdate".data]

/-- `h1, h2, h3, h4, h5, h6`. -/
def headingSels : List Sel :=
  (["h1", "h2", "h3", "h4", "h5", "h6"].map String.data).map Sel.tag

end Dom

namespace Jd

open Dom

/-- `extractTitle` (part_001 lines 29-44): the `<title>` element wins whenever
it exists, even with empty text. -/
def extractTitle (d : Forest) : Str :=
  match qs d (Sel.tag "title".data) with
  | some t => cleanTextDom (jsTrim (textContent t))
  | none =>
    match qs d (Sel.tag "h1".data) with
    | some h => cleanTextDom (jsTrim (textContent h))
    | none => []

/-- `extractMetaContent` (part_001 lines 66-74): the first selector whose
element exists answers immediately — `getAttribute('content') || undefined`,
with no trimming and no fall-through on a missing or empty attribute. -/
def extractMetaContent (d : Forest) : List Sel → Option Str
  | [] => none
  | s :: rest =>
    match qs d s with
    | some e =>
      match getAttr (attrsOf e) "content".data with
      | some c => if c = [] then none else some c
      | none => none
    | none => extractMetaContent d rest

/-- `extractMetadata` (part_001 lines 46-64). -/
def extractMetadata (d : Forest) : Option Str × Option Str :=
  (extractMetaContent d authorSels, extractMetaContent d dateSels)

/-- Removal phase of `extractMainContent` (part_001 lines 80-99): the
unwanted-tag loop, then the unwanted-class loop. -/
def removeUnwanted (d : Forest) : Forest :=
  removeBySelList unwantedClassSels (removeBySelList unwantedTagSels d)

/-- `extractTextFromElement` (part_001 lines 127-143): headings, paragraphs
and list items below the matched container, text-extracted and cleaned, with
the length thresholds 0 / 10 / 10; all empty falls back to the container's own
cleaned text. -/
def extractTextFromElement (e : Node) : Str :=
  let paragraphs :=
    ((qsaIn e [Sel.tag "p".data]).map
      (fun p => cleanContentText (jsTrim (textContent p)))).filter
      (fun t => decide (t.length > 10))
  let headings :=
    ((qsaIn e headingSels).map
      (fun h => cleanContentText (jsTrim (textContent h)))).filter
      (fun t => decide (t.length > 0))
  let lists :=
    ((qsaIn e [Sel.tag "li".data]).map
      (fun l => cleanContentText (jsTrim (textContent l)))).filter
      (fun t => decide (t.length > 10))
  let allContent := headings ++ paragraphs ++ lists
  if allContent.length > 0 then joinSp allContent
  else cleanContentText (jsTrim (textContent e))

/-- `extractAllTextFromElement` (part_001 lines 145-148). -/
def extractAllTextFromElement : Option Node → Str
  | none => []
  | some e => cleanContentText (jsTrim (textContent e))

/-- `extractMainContent` (part_001 lines 76-125): removal, then the
first-match content-selector loop, then the paragraph/heading fallback, then
whole-body text. -/
def extractMainContent (d : Forest) : Str :=
  let d2 := removeUnwanted d
  match firstSelMatch d2 contentSels with
  | some e => extractTextFromElement e
  | none =>
    let paragraphs :=
      ((qsa d2 [Sel.tag "p".data]).map
        (fun p => cleanContentText (jsTrim (textContent p)))).filter
        (fun t => decide (t.length > 30))
    let headings :=
      ((qsa d2 headingSels).map
        (fun h => cleanContentText (jsTrim (textContent h)))).filter
        (fun t => decide (t.length > 0))
    let allContent := headings ++ paragraphs
    if allContent.length > 0 then joinSp allContent
    else extractAllTextFromElement (qs d2 (Sel.tag "body".data))

end Jd

namespace Ld

open Dom

/-- `extractTitle` (fetcher.ts lines 350-362): the `<title>` branch is taken
only when its trimmed text is non-empty, otherwise the first `<h1>` with
non-empty trimmed text, otherwise the empty string. -/
def extractTitle (d : Forest) : Str :=
  let titlePart :=
    match qs d (Sel.tag "title".data) with
    | some t => jsTrim (textContent t)
    | none => []
  if titlePart ≠ [] then cleanTextDom titlePart
  else
    let h1Part :=
      match qs d (Sel.tag "h1".data) with
      | some h => jsTrim (textContent h)
      | none => []
    if h1Part ≠ [] then cleanTextDom h1Part else []

/-- `extractMetaContent` (fetcher.ts lines 371-383): first selector whose
element has non-empty trimmed `content` wins; empty or missing content falls
through to the next selector. -/
def extractMetaContent (d : Forest) : List Sel → Option Str
  | [] => none
  | s :: rest =>
    match qs d s with
    | some e =>
      match getAttr (attrsOf e) "content".data with
      | some c => if jsTrim c ≠ [] then some (jsTrim c) else extractMetaContent d rest
      | none => extractMetaContent d rest
    | none => extractMetaContent d rest

/-- `extractMetadata` (fetcher.ts lines 364-369). -/
def extractMetadata (d : Forest) : Option Str × Option Str :=
  (extractMetaContent d authorSels, extractMetaContent d dateSels)

/-- `removeUnwantedElements` (fetcher.ts lines 461-488). -/
def removeUnwantedElements (d : Forest) : Forest :=
  removeBySelList unwantedClassSels (removeBySelList unwantedTagSels d)

/-- Removal of unwanted descendants below a container (the single
comma-joined `querySelectorAll` of `preserveFormattingInElement`). -/
def pruneKids : Node → Node
  | Node.text s => Node.text s
  | Node.elem t a cs => Node.elem t a (pruneList (unwantedTagSels ++ unwantedClassSels) cs)

/-- `preserveFormattingInElement` (fetcher.ts lines 490-499): remove unwanted
descendants, then trimmed `innerHTML`. -/
def preserveFormattingInElement (e : Node) : Str :=
  jsTrim (innerHTML (pruneKids e))

/-- The title-selector priority list of `findTitleH1BeforeContent`. -/
def titleSels : List Sel :=
  [Sel.tagCls "h1".data "title".data,
    Sel.tagCls "h1".data "entry-title".data,
    Sel.tagCls "h1".data "post-title".data,
    Sel.tagCls "h1".data "article-title".data,
    Sel.tagAttrSub "h1".data "class".data "title".data]

/-- `findTitleH1BeforeContent` (fetcher.ts lines 396-419): for each selector
in order, the document-first match is position-checked against the content
container (`compareDocumentPosition & 4`, i.e. the heading strictly precedes
the container in document order); on success the loop answers immediately
with `textContent.trim() || null` — so a preceding heading with empty text
aborts the whole search. -/
def findTitleH1Go (d : Forest) (contentIdx : Nat) : List Sel → Option Str
  | [] => none
  | s :: rest =>
    match qsIdx d s with
    | some (i, n) =>
      if i < contentIdx then
        (if jsTrim (textContent n) = [] then none else some (jsTrim (textContent n)))
      else findTitleH1Go d contentIdx rest
    | none => findTitleH1Go d contentIdx rest

/-- `findTitleH1BeforeContent` over the title-selector list. -/
def findTitleH1BeforeContent (d : Forest) (contentIdx : Nat) : Option Str :=
  findTitleH1Go d contentIdx titleSels

/-- `findContentBySelectors` (fetcher.ts lines 421-438): first content
selector with a match wins; the matched container's preserved inner HTML gets
an `<h1>` prefix when a title heading precedes the container. -/
def findContentBySelectors (d : Forest) : List Sel → Option Str
  | [] => none
  | s :: rest =>
    match qsIdx d s with
    | some (i, e) =>
      let contentHtml := preserveFormattingInElement e
      match findTitleH1BeforeContent d i with
      | some t => some ("<h1>".data ++ t ++ "</h1>".data ++ contentHtml)
      | none => some contentHtml
    | none => findContentBySelectors d rest

/-- `extractElementsText` (fetcher.ts lines 450-459): preserved inner HTML of
every match, kept when longer than `minLength`. -/
def extractElementsText (d : Forest) (sels : List Sel) (minLength : Nat) : List Str :=
  ((qsa d sels).map preserveFormattingInElement).filter
    (fun t => decide (t.length > minLength))

/-- `extractAllTextFromElement` (fetcher.ts lines 501-504). -/
def extractAllTextFromElement : Option Node → Str
  | none => []
  | some e => preserveFormattingInElement e

/-- `extractContentFallback` (fetcher.ts lines 440-448): headings then
paragraphs (thresholds 0 and 30 on the preserved-HTML length), space-joined;
empty falls back to the whole `<body>`. -/
def extractContentFallback (d : Forest) : Str :=
  let paragraphs := extractElementsText d [Sel.tag "p".data] 30
  let headings := extractElementsText d headingSels 0
  let allContent := headings ++ paragraphs
  if allContent.length > 0 then joinSp allContent
  else extractAllTextFromElement (qs d (Sel.tag "body".data))

/-- `extractMainContent` (fetcher.ts lines 385-394). -/
def extractMainContent (d : Forest) : Str :=
  let d2 := removeUnwantedElements d
  match findContentBySelectors d2 contentSels with
  | some c => c
  | none => extractContentFallback d2

/-- `extractContent` (fetcher.ts lines 325-348): empty or whitespace-only
input short-circuits to the all-empty record before the document loader
(`parse`, the external collaborator) is consulted. -/
def extractContent (parse : Str → Forest) (html : Str) : ArticleContent :=
  if jsTrim html = [] then ⟨[], [], none, none⟩
  else
    let d := parse html
    ⟨extractTitle d, extractMainContent d,
      (extractMetadata d).1, (extractMetadata d).2⟩

end Ld

theorem subStr_refl (s : Str) : SubStr s s := ⟨[], [], by simp⟩

theorem subStr_trans {a b c : Str} (h1 : SubStr a b) (h2 : SubStr b c) : SubStr a c := by
  obtain ⟨p1, s1, rfl⟩ := h1
  obtain ⟨p2, s2, rfl⟩ := h2
  exact ⟨p2 ++ p1, s1 ++ s2, by simp⟩

theorem subStr_nil {m : Str} (h : SubStr m []) : m = [] := by
  obtain ⟨a, b, hab⟩ := h
  obtain ⟨h1, -⟩ := List.append_eq_nil.mp hab.symm
  exact (List.append_eq_nil.mp h1).2

theorem subStr_of_append_left {m a : Str} (b : Str) (h : SubStr m a) : SubStr m (a ++ b) := by
  obtain ⟨p, s, rfl⟩ := h
  exact ⟨p, s ++ b, by simp⟩

theorem subStr_of_append_right {m b : Str} (a : Str) (h : SubStr m b) : SubStr m (a ++ b) := by
  obtain ⟨p, s, rfl⟩ := h
  exact ⟨a ++ p, s, by simp⟩

theorem subStr_mem {m s : Str} {c : Char} (h : SubStr m s) (hc : c ∈ m) : c ∈ s := by
  obtain ⟨p, t, rfl⟩ := h
  simp [hc]

theorem subStr_append {m a b : Str} (h : SubStr m (a ++ b)) :
    SubStr m a ∨ SubStr m b ∨
      ∃ m1 m2, m = m1 ++ m2 ∧ m1 ≠ [] ∧ m2 ≠ [] ∧
        (∃ p, a = p ++ m1) ∧ (∃ s, b = m2 ++ s) := by
  obtain ⟨p, s, hps⟩ := h
  rw [List.append_assoc] at hps
  rcases List.append_eq_append_iff.mp hps with ⟨t, ht1, ht2⟩ | ⟨t, ht1, ht2⟩
  · exact Or.inr (Or.inl ⟨t, s, by rw [ht2, List.append_assoc]⟩)
  · rcases List.append_eq_append_iff.mp ht2.symm with ⟨u, hu1, hu2⟩ | ⟨u, hu1, hu2⟩
    · cases u with
      | nil => simp only [List.append_nil] at hu1; exact Or.inl ⟨p, [], by simp [ht1, hu1]⟩
      | cons x xs =>
        by_cases hm2 : t = []
        · subst hm2
          simp only [List.nil_append] at hu1
          exact Or.inr (Or.inl ⟨[], s, by simp [hu1.symm ▸ hu2]⟩)
        · refine Or.inr (Or.inr ⟨t, x :: xs, hu1, hm2, by simp, ⟨p, ht1⟩, ⟨s, ?_⟩⟩)
          rw [hu2]
    · exact Or.inl ⟨p, u, by rw [ht1, hu1, List.append_assoc]⟩

theorem subStr_cons_iff {m : Str} {c : Char} {y : Str} :
    SubStr m (c :: y) ↔ (∃ b, c :: y = m ++ b) ∨ SubStr m y := by
  constructor
  · rintro ⟨p, s, hps⟩
    cases p with
    | nil => exact Or.inl ⟨s, by simpa using hps⟩
    | cons x xs =>
      rw [List.cons_append, List.cons_append] at hps
      have h2 : y = xs ++ m ++ s := by
        have := (List.cons.injEq .. ▸ hps).2
        simpa [List.append_assoc] using this
      exact Or.inr ⟨xs, s, h2⟩
  · rintro (⟨b, hb⟩ | ⟨p, s, hps⟩)
    · exact ⟨[], b, by simpa using hb⟩
    · exact ⟨c :: p, s, by simp [hps]⟩

theorem subStr_joinSp {m : Str} (hm : m ≠ []) (hsp : ' ' ∉ m) :
    ∀ {l : List Str}, SubStr m (joinSp l) → ∃ x ∈ l, SubStr m x := by
  intro l
  induction l with
  | nil =>
    intro h
    exact absurd (subStr_nil h) hm
  | cons x rest ih =>
    intro h
    cases rest with
    | nil =>
      exact ⟨x, by simp, by simpa [joinSp] using h⟩
    | cons y r =>
      rw [joinSp] at h
      rcases subStr_append (a := x) (b := ' ' :: joinSp (y :: r)) h with h1 | h2 | h3
      · exact ⟨x, by simp, h1⟩
      · rcases subStr_cons_iff.mp h2 with ⟨b, hb⟩ | h4
        · cases m with
          | nil => exact absurd rfl hm
          | cons mc mrest =>
            rw [List.cons_append] at hb
            exact absurd ((List.cons.injEq .. ▸ hb).1 ▸ List.mem_cons_self mc mrest) hsp
        · obtain ⟨z, hz1, hz2⟩ := ih h4
          exact ⟨z, by simp [hz1], hz2⟩
      · obtain ⟨m1, m2, hm12, hm1, hm2, hsuf, t, hpre⟩ := h3
        cases m2 with
        | nil => exact absurd rfl hm2
        | cons z zs =>
          rw [List.cons_append] at hpre
          have : z = ' ' := (List.cons.injEq .. ▸ hpre).1.symm
          exact absurd (this ▸ (by simp [hm12] : z ∈ m)) hsp

namespace Dom

mutual

theorem pruneNode_pruneNode (s1 s2 : List Sel) (n : Node) :
    (match pruneNode s1 n with
     | some m => pruneNode s2 m
     | none => none) = pruneNode (s1 ++ s2) n := by
  cases n with
  | text s => rfl
  | elem t a cs =>
    by_cases h1 : s1.any (fun s => matchesSel s (Node.elem t a cs))
    · rw [pruneNode, if_pos h1]
      rw [pruneNode, if_pos (by simp only [List.any_append, h1, Bool.true_or])]
    · rw [pruneNode, if_neg h1]
      by_cases h2 : s2.any (fun s => matchesSel s (Node.elem t a cs))
      · have h2b : s2.any (fun s => matchesSel s (Node.elem t a (pruneList s1 cs))) = true := by
          obtain ⟨x, hx1, hx2⟩ := List.any_eq_true.mp h2
          refine List.any_eq_true.mpr ⟨x, hx1, ?_⟩
          cases x <;> simpa using hx2
        dsimp only
        rw [pruneNode, if_pos h2b, pruneNode,
          if_pos (by simp only [List.any_append, h2, Bool.or_true])]
      · have h2b : s2.any (fun s => matchesSel s (Node.elem t a (pruneList s1 cs))) = false := by
          rw [Bool.eq_false_iff]
          intro hq
          obtain ⟨x, hx1, hx2⟩ := List.any_eq_true.mp hq
          refine absurd (List.any_eq_true.mpr ⟨x, hx1, ?_⟩) (by simpa using h2)
          cases x <;> simpa using hx2
        dsimp only
        rw [pruneNode, if_neg (by simp [h2b]), pruneNode,
          if_neg (by simp only [List.any_append, h1, h2, Bool.or_self, Bool.false_eq_true,
            not_false_eq_true]),
          pruneList_pruneList s1 s2 cs]
  termination_by sizeOf n

theorem pruneList_pruneList (s1 s2 : List Sel) (d : Forest) :
    pruneList s2 (pruneList s1 d) = pruneList (s1 ++ s2) d := by
  cases d with
  | nil => rfl
  | cons n ns =>
    rw [pruneList]
    cases hp : pruneNode s1 n with
    | some m =>
      rw [pruneList, pruneList]
      have := pruneNode_pruneNode s1 s2 n
      rw [hp] at this
      dsimp only at this
      rw [← this]
      cases hq : pruneNode s2 m with
      | some k => rw [pruneList_pruneList s1 s2 ns]
      | none => rw [pruneList_pruneList s1 s2 ns]
    | none =>
      have := pruneNode_pruneNode s1 s2 n
      rw [hp] at this
      dsimp only at this
      rw [pruneList, ← this, pruneList_pruneList s1 s2 ns]
  termination_by sizeOf d

end

end Dom

namespace Dom

mutual

theorem pruneNode_nil (n : Node) : pruneNode [] n = some n := by
  cases n with
  | text s => rfl
  | elem t a cs =>
    rw [pruneNode, if_neg (by simp), pruneList_nil cs]
  termination_by sizeOf n

theorem pruneList_nil (d : Forest) : pruneList [] d = d := by
  cases d with
  | nil => rfl
  | cons n ns =>
    rw [pruneList, pruneNode_nil n, pruneList_nil ns]
  termination_by sizeOf d

end

theorem removeBySelList_eq_pruneList (sels : List Sel) (d : Forest) :
    removeBySelList sels d = pruneList sels d := by
  induction sels generalizing d with
  | nil => rw [removeBySelList, List.foldl_nil, pruneList_nil]
  | cons s rest ih =>
    rw [removeBySelList, List.foldl_cons, ← removeBySelList, ih, pruneList_pruneList]
    rfl

end Dom

namespace Dom

mutual

/-- No node of the subtree matches any of the selectors. -/
def cleanN (sels : List Sel) : Node → Bool
  | Node.text _ => true
  | Node.elem t a cs =>
    !(sels.any (fun s => matchesSel s (Node.elem t a cs))) && cleanL sels cs

/-- No node of the forest matches any of the selectors. -/
def cleanL (sels : List Sel) : Forest → Bool
  | [] => true
  | n :: ns => cleanN sels n && cleanL sels ns

end

mutual

theorem cleanN_pruneNode (sels : List Sel) (n : Node) :
    ∀ m, pruneNode sels n = some m → cleanN sels m = true := by
  intro m hm
  cases n with
  | text s =>
    rw [pruneNode] at hm
    cases hm
    rfl
  | elem t a cs =>
    by_cases h1 : sels.any (fun s => matchesSel s (Node.elem t a cs))
    · rw [pruneNode, if_pos h1] at hm; cases hm
    · rw [pruneNode, if_neg h1] at hm
      cases hm
      rw [cleanN]
      have h2 : sels.any (fun s => matchesSel s (Node.elem t a (pruneList sels cs))) = false := by
        rw [Bool.eq_false_iff]
        intro hq
        obtain ⟨x, hx1, hx2⟩ := List.any_eq_true.mp hq
        refine absurd (List.any_eq_true.mpr ⟨x, hx1, ?_⟩) (by simpa using h1)
        cases x <;> simpa using hx2
      rw [h2, cleanL_pruneList sels cs]
      rfl
  termination_by sizeOf n

theorem cleanL_pruneList (sels : List Sel) (d : Forest) :
    cleanL sels (pruneList sels d) = true := by
  cases d with
  | nil => rfl
  | cons n ns =>
    rw [pruneList]
    cases hp : pruneNode sels n with
    | some m =>
      rw [cleanL, cleanN_pruneNode sels n m hp, cleanL_pruneList sels ns]
      rfl
    | none => exact cleanL_pruneList sels ns
  termination_by sizeOf d

end

mutual

theorem pruneNode_id_of_clean (sels : List Sel) (n : Node)
    (h : cleanN sels n = true) : pruneNode sels n = some n := by
  cases n with
  | text s => rfl
  | elem t a cs =>
    rw [cleanN, Bool.and_eq_true, Bool.not_eq_true'] at h
    rw [pruneNode, if_neg (by simp [h.1]), pruneList_id_of_clean sels cs h.2]
  termination_by sizeOf n

theorem pruneList_id_of_clean (sels : List Sel) (d : Forest)
    (h : cleanL sels d = true) : pruneList sels d = d := by
  cases d with
  | nil => rfl
  | cons n ns =>
    rw [cleanL, Bool.and_eq_true] at h
    rw [pruneList, pruneNode_id_of_clean sels n h.1, pruneList_id_of_clean sels ns h.2]
  termination_by sizeOf d

end

mutual

theorem cleanN_mem (sels : List Sel) (n : Node) (x : Node)
    (hx : x ∈ preNodes n) (h : cleanN sels n = true) : cleanN sels x = true := by
  cases n with
  | text s =>
    rw [preNodes] at hx
    rcases List.mem_singleton.mp hx with rfl
    exact h
  | elem t a cs =>
    rw [preNodes] at hx
    rcases List.mem_cons.mp hx with rfl | hx2
    · exact h
    · rw [cleanN, Bool.and_eq_true] at h
      exact cleanL_mem sels cs x hx2 h.2
  termination_by sizeOf n

theorem cleanL_mem (sels : List Sel) (d : Forest) (x : Node)
    (hx : x ∈ preNodesList d) (h : cleanL sels d = true) : cleanN sels x = true := by
  cases d with
  | nil => cases hx
  | cons n ns =>
    rw [cleanL, Bool.and_eq_true] at h
    rw [preNodesList] at hx
    rcases List.mem_append.mp hx with h1 | h2
    · exact cleanN_mem sels n x h1 h.1
    · exact cleanL_mem sels ns x h2 h.2
  termination_by sizeOf d

end

mutual

/-- Void elements have no children anywhere in the subtree (HTML parsers
guarantee this; the serializer omits their closing tags). -/
def voidOkN : Node → Bool
  | Node.text _ => true
  | Node.elem t _ cs =>
    (if voidTags.contains t then cs.isEmpty else true) && voidOkL cs

/-- Void elements have no children anywhere in the forest. -/
def voidOkL : Forest → Bool
  | [] => true
  | n :: ns => voidOkN n && voidOkL ns

end

mutual

theorem voidOkN_mem (n : Node) (x : Node)
    (hx : x ∈ preNodes n) (h : voidOkN n = true) : voidOkN x = true := by
  cases n with
  | text s =>
    rw [preNodes] at hx
    rcases List.mem_singleton.mp hx with rfl
    exact h
  | elem t a cs =>
    rw [preNodes] at hx
    rcases List.mem_cons.mp hx with rfl | hx2
    · exact h
    · rw [voidOkN, Bool.and_eq_true] at h
      exact voidOkL_mem cs x hx2 h.2
  termination_by sizeOf n

theorem voidOkL_mem (d : Forest) (x : Node)
    (hx : x ∈ preNodesList d) (h : voidOkL d = true) : voidOkN x = true := by
  cases d with
  | nil => cases hx
  | cons n ns =>
    rw [voidOkL, Bool.and_eq_true] at h
    rw [preNodesList] at hx
    rcases List.mem_append.mp hx with h1 | h2
    · exact voidOkN_mem n x h1 h.1
    · exact voidOkL_mem ns x h2 h.2
  termination_by sizeOf d

end

mutual

theorem subStr_serialize_of_mem (n : Node) (x : Node)
    (hx : x ∈ preNodes n) (hv : voidOkN n = true) :
    SubStr (serializeNode x) (serializeNode n) := by
  cases n with
  | text s =>
    rw [preNodes] at hx
    rcases List.mem_singleton.mp hx with rfl
    exact subStr_refl _
  | elem t a cs =>
    rw [preNodes] at hx
    rcases List.mem_cons.mp hx with rfl | hx2
    · exact subStr_refl _
    · rw [voidOkN, Bool.and_eq_true] at hv
      have h2 := subStr_serializeList_of_mem cs x hx2 hv.2
      rw [serializeNode]
      by_cases hvt : voidTags.contains t
      · rw [hvt] at hv
        simp only [if_pos rfl] at hv
        rw [List.isEmpty_iff.mp hv.1] at hx2
        cases hx2
      · rw [if_neg hvt]
        refine subStr_trans h2 ⟨'<' :: (t ++ serializeAttrs a) ++ ['>'], '<' :: '/' :: t ++ ['>'], ?_⟩
        simp [List.append_assoc]
  termination_by sizeOf n

theorem subStr_serializeList_of_mem (d : Forest) (x : Node)
    (hx : x ∈ preNodesList d) (hv : voidOkL d = true) :
    SubStr (serializeNode x) (serializeList d) := by
  cases d with
  | nil => cases hx
  | cons n ns =>
    rw [voidOkL, Bool.and_eq_true] at hv
    rw [preNodesList] at hx
    rw [serializeList]
    rcases List.mem_append.mp hx with h1 | h2
    · exact subStr_of_append_left _ (subStr_serialize_of_mem n x h1 hv.1)
    · exact subStr_of_append_right _ (subStr_serializeList_of_mem ns x h2 hv.2)
  termination_by sizeOf d

end

mutual

theorem subStr_text_of_mem (n : Node) (x : Node)
    (hx : x ∈ preNodes n) : SubStr (textContent x) (textContent n) := by
  cases n with
  | text s =>
    rw [preNodes] at hx
    rcases List.mem_singleton.mp hx with rfl
    exact subStr_refl _
  | elem t a cs =>
    rw [preNodes] at hx
    rcases List.mem_cons.mp hx with rfl | hx2
    · exact subStr_refl _
    · rw [textContent]
      exact subStr_textList_of_mem cs x hx2
  termination_by sizeOf n

theorem subStr_textList_of_mem (d : Forest) (x : Node)
    (hx : x ∈ preNodesList d) : SubStr (textContent x) (textContentList d) := by
  cases d with
  | nil => cases hx
  | cons n ns =>
    rw [preNodesList] at hx
    rw [textContentList]
    rcases List.mem_append.mp hx with h1 | h2
    · exact subStr_of_append_left _ (subStr_text_of_mem n x h1)
    · exact subStr_of_append_right _ (subStr_textList_of_mem ns x h2)
  termination_by sizeOf d

end

theorem qsIdx_mem {d : Forest} {s : Sel} {i : Nat} {n : Node}
    (h : qsIdx d s = some (i, n)) : n ∈ preNodesList d := by
  rw [qsIdx] at h
  have h2 := List.mem_of_find?_eq_some h
  exact List.getElem?_mem (List.mk_mem_enum_iff_getElem?.mp h2)

end Dom

theorem subStr_jsTrim {m s : Str} (h : SubStr m (jsTrim s)) : SubStr m s := by
  obtain ⟨a, b, hab⟩ := Rx.jsTrim_decomp s
  exact subStr_trans h ⟨a, b, hab⟩

/-- No two adjacent ASCII letters. -/
def noAlphaPair : Str → Bool
  | [] => true
  | [_] => true
  | a :: b :: r => !(a.isAlpha && b.isAlpha) && noAlphaPair (b :: r)

theorem noAlphaPair_tail {x : Char} {t : Str} (h : noAlphaPair (x :: t) = true) :
    noAlphaPair t = true := by
  cases t with
  | nil => rfl
  | cons y r =>
    rw [noAlphaPair, Bool.and_eq_true] at h
    exact h.2

theorem noAlphaPair_drop {p y : Str} (h : noAlphaPair (p ++ y) = true) :
    noAlphaPair y = true := by
  induction p with
  | nil => exact h
  | cons x xs ih => exact ih (noAlphaPair_tail h)

theorem not_subStr_of_noAlphaPair {x m : Str} (hx : noAlphaPair x = true)
    (hlen : 2 ≤ m.length) (halpha : ∀ c ∈ m, c.isAlpha = true) : ¬ SubStr m x := by
  rintro ⟨p, s, rfl⟩
  cases m with
  | nil => simp at hlen
  | cons a m1 =>
    cases m1 with
    | nil => simp at hlen
    | cons b r =>
      rw [List.append_assoc] at hx
      have h2 := noAlphaPair_drop (p := p) hx
      rw [List.cons_append, List.cons_append] at h2
      rw [noAlphaPair, Bool.and_eq_true, Bool.not_eq_true', Bool.and_eq_false_iff] at h2
      rcases h2.1 with hq | hq
      · exact absurd (halpha a (by simp)) (by simp [hq])
      · exact absurd (halpha b (by simp)) (by simp [hq])

namespace Dom

theorem qsa_mem {d : Forest} {sels : List Sel} {x : Node}
    (h : x ∈ qsa d sels) : x ∈ preNodesList d :=
  List.mem_of_mem_filter h

theorem qs_qsIdx {d : Forest} {s : Sel} {n : Node} (h : qs d s = some n) :
    ∃ i, qsIdx d s = some (i, n) := by
  rw [qs] at h
  cases hq : qsIdx d s with
  | none => rw [hq] at h; cases h
  | some p =>
    rw [hq] at h
    obtain ⟨i, m⟩ := p
    have hm : m = n := by simpa using h
    subst hm
    exact ⟨i, rfl⟩

end Dom

theorem subStr_append_cases {m a b : Str} (halpha : ∀ c ∈ m, c.isAlpha = true)
    (h : SubStr m (a ++ b))
    (hbd : (∃ c, b.head? = some c ∧ c.isAlpha = false) ∨
      (∃ c, a.getLast? = some c ∧ c.isAlpha = false)) :
    SubStr m a ∨ SubStr m b := by
  rcases subStr_append h with h1 | h2 | h3
  · exact Or.inl h1
  · exact Or.inr h2
  · obtain ⟨m1, m2, hm12, hm1, hm2, ⟨p, hp⟩, ⟨s, hs⟩⟩ := h3
    exfalso
    rcases hbd with ⟨c, hc1, hc2⟩ | ⟨c, hc1, hc2⟩
    · rw [hs, List.head?_append] at hc1
      cases m2 with
      | nil => exact absurd rfl hm2
      | cons z zs =>
        simp only [List.head?_cons, Option.some_orElse] at hc1
        have hz : z = c := by simpa using hc1
        exact absurd (halpha c (by simp [hm12, ← hz])) (by simp [hc2])
    · rw [hp, List.getLast?_append_of_ne_nil p hm1] at hc1
      obtain ⟨hne2, hcc⟩ := List.mem_getLast?_eq_getLast (Option.mem_def.mpr hc1)
      have hmem : c ∈ m1 := hcc ▸ List.getLast_mem hne2
      exact absurd (halpha c (by simp [hm12, hmem])) (by simp [hc2])

namespace Ld

open Dom

theorem findTitleH1Go_some {d : Forest} {idx : Nat} {sels : List Sel} {t : Str}
    (h : findTitleH1Go d idx sels = some t) :
    ∃ n, n ∈ preNodesList d ∧ t = jsTrim (textContent n) ∧ t ≠ [] := by
  induction sels with
  | nil => cases h
  | cons s rest ih =>
    rw [findTitleH1Go] at h
    cases hq : qsIdx d s with
    | some p =>
      obtain ⟨i, n⟩ := p
      rw [hq] at h
      dsimp only at h
      by_cases hlt : i < idx
      · rw [if_pos hlt] at h
        by_cases hemp : jsTrim (textContent n) = []
        · rw [if_pos hemp] at h; cases h
        · rw [if_neg hemp] at h
          have ht : t = jsTrim (textContent n) := by simpa using h.symm
          exact ⟨n, qsIdx_mem hq, ht, ht ▸ hemp⟩
      · rw [if_neg hlt] at h
        exact ih h
    | none =>
      rw [hq] at h
      exact ih h

theorem findContentBySelectors_some {d : Forest} {sels : List Sel} {c : Str}
    (h : findContentBySelectors d sels = some c) :
    ∃ e, e ∈ preNodesList d ∧
      (c = preserveFormattingInElement e ∨
        ∃ n, n ∈ preNodesList d ∧
          c = "<h1>".data ++ jsTrim (textContent n) ++ "</h1>".data ++
              preserveFormattingInElement e ∧
            jsTrim (textContent n) ≠ []) := by
  induction sels with
  | nil => cases h
  | cons s rest ih =>
    rw [findContentBySelectors] at h
    cases hq : qsIdx d s with
    | some p =>
      obtain ⟨i, e⟩ := p
      rw [hq] at h
      dsimp only at h
      refine ⟨e, qsIdx_mem hq, ?_⟩
      cases hft : findTitleH1BeforeContent d i with
      | some t =>
        rw [hft] at h
        obtain ⟨n, hn1, hn2, hn3⟩ := findTitleH1Go_some hft
        refine Or.inr ⟨n, hn1, ?_, hn2 ▸ hn3⟩
        rw [← hn2]
        simpa using h.symm
      | none =>
        rw [hft] at h
        exact Or.inl (by simpa using h.symm)
    | none =>
      rw [hq] at h
      exact ih h

theorem subStr_preserve {d2 : Forest} {e : Node} {m : Str}
    (he : e ∈ preNodesList d2)
    (hclean : cleanL (unwantedTagSels ++ unwantedClassSels) d2 = true)
    (hv : voidOkL d2 = true)
    (hne : m ≠ [])
    (hm : SubStr m (preserveFormattingInElement e)) :
    SubStr m (serializeList d2) := by
  have hcn := cleanL_mem _ d2 e he hclean
  have hvn := voidOkL_mem d2 e he hv
  cases e with
  | text s =>
    rw [preserveFormattingInElement, pruneKids] at hm
    have h1 : SubStr m (innerHTML (Node.text s)) := subStr_jsTrim hm
    exact subStr_trans h1 (subStr_serializeList_of_mem d2 _ he hv)
  | elem t a cs =>
    rw [cleanN, Bool.and_eq_true] at hcn
    rw [preserveFormattingInElement, pruneKids, pruneList_id_of_clean _ cs hcn.2] at hm
    have h1 : SubStr m (serializeList cs) := subStr_jsTrim hm
    rw [voidOkN, Bool.and_eq_true] at hvn
    by_cases hvt : voidTags.contains t
    · rw [hvt] at hvn
      simp only [if_pos rfl] at hvn
      rw [List.isEmpty_iff.mp hvn.1] at h1
      exact absurd (subStr_nil h1) hne
    · have h3 : SubStr m (serializeNode (Node.elem t a cs)) := by
        rw [serializeNode, if_neg hvt]
        exact subStr_of_append_right _ (subStr_of_append_left _ h1)
      exact subStr_trans h3 (subStr_serializeList_of_mem d2 _ he hv)

end Ld

/-- Element-node shorthand for the concrete documents below (the parsed form
of the HTML inputs named in the claims; parsing itself is the external
collaborator of spec §1/§6). -/
def el (t : String) (a : List (String × String)) (cs : List Dom.Node) : Dom.Node :=
  Dom.Node.elem t.data (a.map (fun p => (p.1.data, p.2.data))) cs

/-- Text-node shorthand. -/
def tx (s : String) : Dom.Node := Dom.Node.text s.data

/-- The HTML of claim C3's scenario: an empty `<title>` and an `<h1>Foo</h1>`. -/
def c3Input : Str := "<html><head><title></title></head><body><h1>Foo</h1></body></html>".data

/-- The parsed form of `c3Input`. -/
def c3Doc : Dom.Forest :=
  [el "html" [] [el "head" [] [el "title" [] []],
    el "body" [] [el "h1" [] [tx "Foo"]]]]

/-- C3, counterexample: the claim says that when the `<title>` element's text
is empty the extractor falls back to the first `<h1>`, so this input must
yield the title `Foo`; but the regex variant and the JSDOM variant both take
the `<title>` branch whenever the element merely exists and return the empty
string. -/
theorem C3_title_empty_counterexample :
    Rx.extractTitle c3Input = [] ∧ Jd.extractTitle c3Doc = [] ∧
      ("Foo".data : Str) ≠ [] :=
  ⟨by decide, rfl, by decide⟩

/-- The `<h1>` fallback of the title rule, as claim C3 words it. -/
def ldTitleH1Fallback (d : Dom.Forest) : Str :=
  match Dom.qs d (Dom.Sel.tag "h1".data) with
  | some h => Dom.cleanTextDom (jsTrim (Dom.textContent h))
  | none => []

/-- The title rule as claim C3 words it: the cleaned `<title>` text when
non-empty, else the first `<h1>` text, else the empty string. -/
def ldTitleSpec (d : Dom.Forest) : Str :=
  match Dom.qs d (Dom.Sel.tag "title".data) with
  | some t =>
    if jsTrim (Dom.textContent t) = [] then ldTitleH1Fallback d
    else Dom.cleanTextDom (jsTrim (Dom.textContent t))
  | none => ldTitleH1Fallback d

/-- C3, amended: the claimed title rule — `<title>` when its text is
non-empty, else first `<h1>`, else empty, never failing — holds of the
linkedom variant (the variant that checks emptiness); the regex and JSDOM
variants only fall back when the `<title>` element is absent. -/
theorem C3_title_rule_amended : ∀ d : Dom.Forest, Ld.extractTitle d = ldTitleSpec d := by
  intro d
  rw [Ld.extractTitle, ldTitleSpec]
  cases hq : Dom.qs d (Dom.Sel.tag "title".data) with
  | some t =>
    dsimp only
    by_cases hemp : jsTrim (Dom.textContent t) = []
    · rw [if_pos hemp, hemp]
      simp only [ne_eq, not_true_eq_false, if_false, ldTitleH1Fallback]
      cases hh : Dom.qs d (Dom.Sel.tag "h1".data) with
      | some h =>
        dsimp only
        by_cases hh2 : jsTrim (Dom.textContent h) = []
        · rw [if_neg (by simp [hh2]), hh2]
          rfl
        · rw [if_pos (by simp [hh2])]
      | none => simp
    · rw [if_neg hemp, if_pos (by simp [hemp])]
  | none =>
    dsimp only
    simp only [ne_eq, not_true_eq_false, if_false, ldTitleH1Fallback]
    cases hh : Dom.qs d (Dom.Sel.tag "h1".data) with
    | some h =>
      dsimp only
      by_cases hh2 : jsTrim (Dom.textContent h) = []
      · rw [if_neg (by simp [hh2]), hh2]
        rfl
      · rw [if_pos (by simp [hh2])]
    | none => simp

/-- C4, counterexample: the DOM-based `cleanText` decodes entities through the
parser round-trip, so a second application decodes again:
`cleanText("&amp;amp;")` is `"&amp;"` but applying it twice gives `"&"`. -/
theorem C4_cleanText_dom_counterexample :
    Dom.cleanTextDom (Dom.cleanTextDom "&amp;amp;".data) ≠
      Dom.cleanTextDom "&amp;amp;".data := by decide

/-- C4, amended: idempotence does hold of the regex variant's `cleanText`
(tag strip, entity strip, whitespace collapse, trim): a cleaned string has no
remaining tag-shaped or entity-shaped match and is fully collapsed and
trimmed, so a second pass is the identity. -/
theorem C4_cleanText_idempotent_amended (s : Str) :
    Rx.cleanText (Rx.cleanText s) = Rx.cleanText s := by
  obtain ⟨h1, h2, h3, h4⟩ := Rx.cleanText_self s
  exact Rx.cleanText_fixed h1 h2 h3 h4 (fun c hc => Rx.jsTrim_head hc)
    (fun c hc => Rx.jsTrim_getLast hc)

/-- The parsed form of claim C5's scenario: a `meta[name="author"]` without a
`content` attribute followed by a `meta[property="article:author"]` whose
content is `X`. -/
def c5Doc : Dom.Forest :=
  [el "html" [] [el "head" []
    [el "meta" [("name", "author")] [],
      el "meta" [("property", "article:author"), ("content", "X")] []]]]

/-- C5, counterexample: the claim says iteration continues to the next
selector when the matched element's `content` attribute is missing, so the
author should be `X`; the JSDOM variant instead answers immediately at the
first selector whose element exists and yields `undefined`. -/
theorem C5_meta_fallthrough_counterexample :
    (Jd.extractMetadata c5Doc).1 = none ∧
      (none : Option Str) ≠ some "X".data :=
  ⟨rfl, by decide⟩

/-- C5, amended: the claimed behaviour holds of the linkedom variant — a
selector result is present exactly when some selector matches an element with
non-empty trimmed `content`, and the first such selector answers immediately
with the trimmed value. -/
theorem C5_meta_first_nonempty_amended :
    (∀ (d : Dom.Forest) (sels : List Dom.Sel),
      (Ld.extractMetaContent d sels).isSome = true ↔
        ∃ s ∈ sels, ∃ e, Dom.qs d s = some e ∧
          ∃ c, Dom.getAttr (Dom.attrsOf e) "content".data = some c ∧ jsTrim c ≠ []) ∧
    (∀ (d : Dom.Forest) (s : Dom.Sel) (rest : List Dom.Sel) (e : Dom.Node) (c : Str),
      Dom.qs d s = some e →
      Dom.getAttr (Dom.attrsOf e) "content".data = some c →
      jsTrim c ≠ [] →
      Ld.extractMetaContent d (s :: rest) = some (jsTrim c)) := by
  constructor
  · intro d sels
    induction sels with
    | nil => simp [Ld.extractMetaContent]
    | cons s rest ih =>
      rw [Ld.extractMetaContent]
      cases hq : Dom.qs d s with
      | some e =>
        dsimp only
        cases hc : Dom.getAttr (Dom.attrsOf e) "content".data with
        | some c =>
          dsimp only
          by_cases hne : jsTrim c ≠ []
          · rw [if_pos hne]
            simp only [Option.isSome_some, true_iff]
            exact ⟨s, by simp, e, hq, c, hc, hne⟩
          · rw [if_neg hne, ih]
            constructor
            · rintro ⟨s2, hs2, rest2⟩
              exact ⟨s2, by simp [hs2], rest2⟩
            · rintro ⟨s2, hs2, e2, he2, c2, hc2, hne2⟩
              rcases List.mem_cons.mp hs2 with rfl | hs3
              · rw [hq] at he2
                have he3 : e = e2 := by simpa using he2
                subst he3
                rw [hc] at hc2
                have hc3 : c = c2 := by simpa using hc2
                subst hc3
                exact absurd hne2 hne
              · exact ⟨s2, hs3, e2, he2, c2, hc2, hne2⟩
        | none =>
          dsimp only
          rw [ih]
          constructor
          · rintro ⟨s2, hs2, rest2⟩
            exact ⟨s2, by simp [hs2], rest2⟩
          · rintro ⟨s2, hs2, e2, he2, c2, hc2, hne2⟩
            rcases List.mem_cons.mp hs2 with rfl | hs3
            · rw [hq] at he2
              have he3 : e = e2 := by simpa using he2
              subst he3
              rw [hc] at hc2
              cases hc2
            · exact ⟨s2, hs3, e2, he2, c2, hc2, hne2⟩
      | none =>
        rw [ih]
        constructor
        · rintro ⟨s2, hs2, rest2⟩
          exact ⟨s2, by simp [hs2], rest2⟩
        · rintro ⟨s2, hs2, e2, he2, c2, hc2, hne2⟩
          rcases List.mem_cons.mp hs2 with rfl | hs3
          · rw [hq] at he2; cases he2
          · exact ⟨s2, hs3, e2, he2, c2, hc2, hne2⟩
  · intro d s rest e c hq hc hne
    rw [Ld.extractMetaContent, hq]
    dsimp only
    rw [hc]
    dsimp only
    rw [if_pos hne]

/-- The parsed form of a document whose first author selector matches a meta
tag with padded content, used to instantiate the amended C5 rule. -/
def c5DocB : Dom.Forest :=
  [el "html" [] [el "head" []
    [el "meta" [("name", "author"), ("content", " Ann ")] []]]]

/-- Witness for the amended C5 rule at `c5DocB`. -/
theorem C5_meta_first_nonempty_amended_witness :
    Ld.extractMetaContent c5DocB Dom.authorSels = some (jsTrim " Ann ".data) :=
  C5_meta_first_nonempty_amended.2 c5DocB
    (Dom.Sel.tagAttrEq "meta".data "name".data "author".data)
    [Dom.Sel.tagAttrEq "meta".data "property".data "article:author".data,
      Dom.Sel.tagAttrEq "meta".data "name".data "twitter:creator".data]
    (el "meta" [("name", "author"), ("content", " Ann ")] [])
    " Ann ".data rfl rfl (by decide)

/-- HTML whose only class attribute is `social-share` — `social` is not one of
its whole class tokens. -/
def c6Input : Str := "<div class=\"social-share\">NOISEMARK</div><p>KEEPKEEP</p>".data

/-- HTML whose only class attribute is `sidebarwrapper`. -/
def c6InputB : Str := "<div class=\"sidebarwrapper\">KEPTMARK</div>".data

/-- C6, counterexample: the claim says the noise remover uses token-list
membership, so the `social-share` element must survive the `social` entry; the
regex variant's `\b` word-boundary matching removes it (while, as the claim's
other example says, `sidebarwrapper` survives). -/
theorem C6_class_token_counterexample :
    Rx.removeUnwantedElements c6Input = "<p>KEEPKEEP</p>".data ∧
      Rx.removeUnwantedElements c6InputB = c6InputB := by decide

/-- The class names of `UNWANTED_CLASSES`. -/
def unwantedClassNames : List Str :=
  ["sidebar", "navigation", "menu", "advertisement", "ads", "social",
    "comments", "related", "recommended", "popup", "modal"].map String.data

/-- Does the element's parsed class token list contain one of the names as a
whole token?  (The removal criterion exactly as claim C6 words it.) -/
def hasUnwantedTok (names : List Str) (a : List (Str × Str)) : Bool :=
  names.any (fun c => (Dom.classTokens ((Dom.getAttr a "class".data).getD [])).contains c)

mutual

/-- Token-membership pruning, the claim's description of class removal. -/
def tokFilterNode (names : List Str) : Dom.Node → Option Dom.Node
  | Dom.Node.text s => some (Dom.Node.text s)
  | Dom.Node.elem t a cs =>
    if hasUnwantedTok names a then none
    else some (Dom.Node.elem t a (tokFilterList names cs))

/-- Token-membership pruning over a forest. -/
def tokFilterList (names : List Str) : Dom.Forest → Dom.Forest
  | [] => []
  | n :: ns =>
    match tokFilterNode names n with
    | some n2 => n2 :: tokFilterList names ns
    | none => tokFilterList names ns

end

mutual

theorem pruneNode_eq_tokFilterNode (n : Dom.Node) :
    Dom.pruneNode Dom.unwantedClassSels n = tokFilterNode unwantedClassNames n := by
  cases n with
  | text s => rfl
  | elem t a cs =>
    rw [Dom.pruneNode, tokFilterNode]
    have hcond : Dom.unwantedClassSels.any
        (fun s => Dom.matchesSel s (Dom.Node.elem t a cs)) =
        hasUnwantedTok unwantedClassNames a := by
      rw [Dom.unwantedClassSels, hasUnwantedTok, unwantedClassNames]
      generalize (["sidebar", "navigation", "menu", "advertisement", "ads", "social",
        "comments", "related", "recommended", "popup", "modal"].map String.data) = names
      induction names with
      | nil => rfl
      | cons x xs ih => simp only [List.map_cons, List.any_cons, ih]; rfl
    rw [hcond]
    by_cases hc : hasUnwantedTok unwantedClassNames a
    · rw [if_pos hc, if_pos hc]
    · rw [if_neg hc, if_neg hc, pruneList_eq_tokFilterList cs]
  termination_by sizeOf n

theorem pruneList_eq_tokFilterList (d : Dom.Forest) :
    Dom.pruneList Dom.unwantedClassSels d = tokFilterList unwantedClassNames d := by
  cases d with
  | nil => rfl
  | cons n ns =>
    rw [Dom.pruneList, tokFilterList, pruneNode_eq_tokFilterNode n,
      pruneList_eq_tokFilterList ns]
  termination_by sizeOf d

end

/-- C6, amended: the DOM-based variants' class removal is exactly
token-membership pruning — an element is removed precisely when its parsed
class token list contains one of `UNWANTED_CLASSES` as a whole token — while
the regex variant matches the class substring under `\b` word boundaries, so
`class="social-share"` is removed by the `social` entry even though
`class="sidebarwrapper"` survives the `sidebar` entry. -/
theorem C6_class_token_amended : ∀ d : Dom.Forest,
    Dom.removeBySelList Dom.unwantedClassSels d = tokFilterList unwantedClassNames d := by
  intro d
  rw [Dom.removeBySelList_eq_pruneList, pruneList_eq_tokFilterList]

namespace Dom

theorem firstSelMatch_spec (d : Forest) :
    ∀ (sels : List Sel) (i : Fin sels.length) (e : Node),
      (∀ j : Fin sels.length, j.val < i.val → qs d (sels.get j) = none) →
      qs d (sels.get i) = some e → firstSelMatch d sels = some e := by
  intro sels
  induction sels with
  | nil => exact fun i => absurd i.2 (by simp)
  | cons s rest ih =>
    intro i e hprev hcur
    obtain ⟨iv, hi⟩ := i
    cases iv with
    | zero =>
      rw [firstSelMatch]
      rw [show (s :: rest).get ⟨0, hi⟩ = s from rfl] at hcur
      rw [hcur]
    | succ k =>
      have h0 : qs d s = none := hprev ⟨0, by simp⟩ (Nat.succ_pos k)
      rw [firstSelMatch, h0]
      refine ih ⟨k, by simp at hi; omega⟩ e ?_ ?_
      · intro j hj
        exact hprev ⟨j.val + 1, by have h2 := j.2; simp only [List.length_cons]; omega⟩
          (by simpa using hj)
      · simpa using hcur

theorem firstSelMatch_none (d : Forest) (sels : List Sel)
    (h : ∀ s ∈ sels, qs d s = none) : firstSelMatch d sels = none := by
  induction sels with
  | nil => rfl
  | cons s rest ih =>
    rw [firstSelMatch, h s (by simp)]
    exact ih (fun x hx => h x (by simp [hx]))

end Dom

/-- The HTML of claim C1's scenario: an `<article>` carrying one marker and a
`.content` div carrying another, the latter with the much longer, richer
text. -/
def c1Input : Str :=
  ("<article>ARTICLEMARK</article><div class=\"content\">CONTENTMARK alpha beta gamma " ++
    "delta epsilon one. CONTENTMARK alpha beta gamma delta epsilon two.</div>").data

set_option maxRecDepth 10000 in
/-- C1, counterexample: the claim says extraction uses the single
first-matching element of the highest-priority selector, so the extracted
content must contain the `<article>` marker; the regex variant instead
collects the matches of every selector and keeps the best-scoring one, which
here is the `.content` section, so the `<article>` marker is absent (though
present in the input). -/
theorem C1_selector_priority_counterexample :
    subStrB "ARTICLEMARK".data (Rx.extractMainContent c1Input) = false ∧
      subStrB "ARTICLEMARK".data c1Input = true := by decide

/-- C1, amended: first-match-wins does hold of the DOM-based variants — in
the JSDOM variant, whenever some content selector matches (all
higher-priority selectors matching nothing), the extraction works on that one
first-matched element only, and no later selector is consulted. -/
theorem C1_selector_priority_amended :
    ∀ (d : Dom.Forest) (i : Fin Dom.contentSels.length) (e : Dom.Node),
      (∀ j : Fin Dom.contentSels.length, j.val < i.val →
        Dom.qs (Jd.removeUnwanted d) (Dom.contentSels.get j) = none) →
      Dom.qs (Jd.removeUnwanted d) (Dom.contentSels.get i) = some e →
      Jd.extractMainContent d = Jd.extractTextFromElement e := by
  intro d i e hprev hcur
  have hfirst := Dom.firstSelMatch_spec (Jd.removeUnwanted d) Dom.contentSels i e hprev hcur
  rw [Jd.extractMainContent]
  rw [hfirst]

/-- The parsed form of claim C1's scenario document. -/
def c1Doc : Dom.Forest :=
  [el "html" [] [el "body" []
    [el "article" [] [el "p" [] [tx "ARTICLEMARK paragraph long enough to pass."]],
      el "div" [("class", "content")] [el "p" [] [tx "CONTENTMARK paragraph long enough to pass."]]]]]

/-- The `<article>` element of `c1Doc`. -/
def c1ArtEl : Dom.Node :=
  el "article" [] [el "p" [] [tx "ARTICLEMARK paragraph long enough to pass."]]

/-- Witness for the amended C1 rule at `c1Doc`: the `<article>` element is the
first match, extraction works on it alone, and the article marker (not the
`.content` marker) reaches the output. -/
theorem C1_selector_priority_amended_witness :
    Jd.extractMainContent c1Doc = Jd.extractTextFromElement c1ArtEl ∧
      subStrB "ARTICLEMARK".data (Jd.extractMainContent c1Doc) = true ∧
      subStrB "CONTENTMARK".data (Jd.extractMainContent c1Doc) = false :=
  ⟨C1_selector_priority_amended c1Doc ⟨0, by decide⟩ c1ArtEl
      (fun j hj => absurd hj (Nat.not_lt_zero j.val)) rfl,
    by decide, by decide⟩

/-- HTML with no content-selector match, one long paragraph and one short
heading. -/
def c2Input : Str :=
  "<p>This paragraph is definitely longer than thirty characters total.</p><h3>IMPORTANTHEADING</h3>".data

set_option maxRecDepth 4000 in
/-- C2, counterexample: the claim says headings with non-empty cleaned text
are collected with no minimum length and placed before the paragraphs, so the
content should begin with `IMPORTANTHEADING`; the regex variant applies the
thirty-character threshold to headings too (dropping this one) and puts
paragraphs first. -/
theorem C2_fallback_counterexample :
    Rx.extractMainContent c2Input =
      "This paragraph is definitely longer than thirty characters total.".data ∧
      subStrB "IMPORTANTHEADING".data (Rx.extractMainContent c2Input) = false := by decide

/-- The fallback aggregation exactly as claim C2 words it: every `<p>` whose
cleaned text exceeds thirty characters and every `<h1>`-`<h6>` with non-empty
cleaned text, space-joined with all headings first; when empty, the cleaned
text of the whole `<body>`. -/
def jdFallbackSpec (d : Dom.Forest) : Str :=
  let hs := ((Dom.qsa d Dom.headingSels).map
    (fun h => Dom.cleanContentText (jsTrim (Dom.textContent h)))).filter
      (fun t => !t.isEmpty)
  let ps := ((Dom.qsa d [Dom.Sel.tag "p".data]).map
    (fun p => Dom.cleanContentText (jsTrim (Dom.textContent p)))).filter
      (fun t => decide (30 < t.length))
  if (hs ++ ps).isEmpty then
    match Dom.qs d (Dom.Sel.tag "body".data) with
    | some b => Dom.cleanContentText (jsTrim (Dom.textContent b))
    | none => []
  else joinSp (hs ++ ps)

/-- C2, amended: the claimed fallback behaviour holds of the JSDOM variant
(thresholds 30 for paragraphs and none for headings, headings first, `<body>`
text when empty); the regex variant filters headings by the same
thirty-character threshold and joins paragraphs before headings, and the
linkedom variant measures and returns serialized inner HTML rather than
cleaned text. -/
theorem C2_fallback_amended : ∀ d : Dom.Forest,
    (∀ s ∈ Dom.contentSels, Dom.qs (Jd.removeUnwanted d) s = none) →
    Jd.extractMainContent d = jdFallbackSpec (Jd.removeUnwanted d) := by
  intro d h
  have hfirst := Dom.firstSelMatch_none (Jd.removeUnwanted d) Dom.contentSels h
  rw [Jd.extractMainContent, hfirst, jdFallbackSpec]
  dsimp only
  have hflt : ∀ l : List Str,
      l.filter (fun t => decide (t.length > 0)) = l.filter (fun t => !t.isEmpty) := by
    intro l
    refine List.filter_congr ?_
    intro x _
    cases x <;> simp
  rw [hflt]
  generalize hhs : ((Dom.qsa (Jd.removeUnwanted d) Dom.headingSels).map
    (fun h => Dom.cleanContentText (jsTrim (Dom.textContent h)))).filter
      (fun t => !t.isEmpty) = hs
  generalize hps : ((Dom.qsa (Jd.removeUnwanted d) [Dom.Sel.tag "p".data]).map
    (fun p => Dom.cleanContentText (jsTrim (Dom.textContent p)))).filter
      (fun t => decide (30 < t.length)) = ps
  by_cases hemp : (hs ++ ps) = []
  · rw [hemp]
    simp only [List.length_nil, gt_iff_lt, Nat.lt_irrefl, if_false, List.isEmpty_nil, if_true]
    cases Dom.qs (Jd.removeUnwanted d) (Dom.Sel.tag "body".data) <;> rfl
  · rw [if_pos (List.length_pos.mpr hemp),
      if_neg (by rw [List.isEmpty_iff]; exact hemp)]

/-- The parsed form of `c2Input`. -/
def c2Doc : Dom.Forest :=
  [el "html" [] [el "body" []
    [el "p" [] [tx "This paragraph is definitely longer than thirty characters total."],
      el "h3" [] [tx "IMPORTANTHEADING"]]]]

/-- Witness for the amended C2 rule at `c2Doc`: no content selector matches,
and the JSDOM fallback puts the short heading before the long paragraph. -/
theorem C2_fallback_amended_witness :
    Jd.extractMainContent c2Doc = jdFallbackSpec (Jd.removeUnwanted c2Doc) ∧
      Jd.extractMainContent c2Doc =
        ("IMPORTANTHEADING This paragraph is definitely longer than thirty characters total.").data :=
  ⟨C2_fallback_amended c2Doc (by intro s hs; fin_cases hs <;> rfl), by decide⟩

namespace Ld

open Dom

theorem findContentBySelectors_spec (d : Forest) :
    ∀ (sels : List Sel) (j : Fin sels.length) (i : Nat) (e : Node),
      (∀ k : Fin sels.length, k.val < j.val → qsIdx d (sels.get k) = none) →
      qsIdx d (sels.get j) = some (i, e) →
      findContentBySelectors d sels =
        some (match findTitleH1BeforeContent d i with
          | some t => "<h1>".data ++ t ++ "</h1>".data ++ preserveFormattingInElement e
          | none => preserveFormattingInElement e) := by
  intro sels
  induction sels with
  | nil => exact fun j => absurd j.2 (by simp)
  | cons s rest ih =>
    intro j i e hprev hcur
    obtain ⟨jv, hj⟩ := j
    cases jv with
    | zero =>
      rw [show (s :: rest).get ⟨0, hj⟩ = s from rfl] at hcur
      rw [findContentBySelectors, hcur]
      dsimp only
      cases findTitleH1BeforeContent d i <;> rfl
    | succ k =>
      have h0 : qsIdx d s = none := hprev ⟨0, by simp⟩ (Nat.succ_pos k)
      rw [findContentBySelectors, h0]
      refine ih ⟨k, by simp at hj; omega⟩ i e ?_ ?_
      · intro m hm
        exact hprev ⟨m.val + 1, by have h2 := m.2; simp only [List.length_cons]; omega⟩
          (by simpa using hm)
      · simpa using hcur

end Ld

/-- The parsed form of claim C9's failing scenario: an `h1.title` with empty
text precedes the `<article>` container. -/
def c9Doc : Dom.Forest :=
  [el "html" [] [el "body" []
    [el "h1" [("class", "title")] [], el "article" [] [tx "BODYTEXT"]]]]

/-- C9, counterexample: the claim says that whenever a title-classed `h1`
precedes the container the content is prefixed with `<h1>` + its trimmed text
+ `</h1>` (here `<h1></h1>`); the code instead answers
`textContent.trim() || null`, so a preceding empty heading aborts the search
and no prefix is added. -/
theorem C9_h1_prefix_counterexample :
    Ld.extractMainContent c9Doc = "BODYTEXT".data ∧
      Ld.extractMainContent c9Doc ≠ "<h1></h1>BODYTEXT".data :=
  ⟨rfl, by decide⟩

/-- C9, amended: in the linkedom variant, when the highest-priority content
selector matches at document position `i`, the content is the container's
preserved inner HTML, prefixed with `<h1>`…`</h1>` exactly when the
title-heading search answers; and that search tries the title selectors in
order, continuing past selectors whose first match does not precede the
container, answering at the first one that does — with the heading's trimmed
text when non-empty, and with no prefix at all (aborting, regardless of later
selectors) when that heading's text is empty. -/
theorem C9_h1_prefix_amended :
    (∀ (d : Dom.Forest) (j : Fin Dom.contentSels.length) (i : Nat) (e : Dom.Node),
      (∀ k : Fin Dom.contentSels.length, k.val < j.val →
        Dom.qsIdx (Ld.removeUnwantedElements d) (Dom.contentSels.get k) = none) →
      Dom.qsIdx (Ld.removeUnwantedElements d) (Dom.contentSels.get j) = some (i, e) →
      Ld.extractMainContent d =
        (match Ld.findTitleH1BeforeContent (Ld.removeUnwantedElements d) i with
          | some t => "<h1>".data ++ t ++ "</h1>".data ++ Ld.preserveFormattingInElement e
          | none => Ld.preserveFormattingInElement e)) ∧
    (∀ (d : Dom.Forest) (idx : Nat) (s : Dom.Sel) (rest : List Dom.Sel)
        (i : Nat) (n : Dom.Node),
      Dom.qsIdx d s = some (i, n) → i < idx → jsTrim (Dom.textContent n) = [] →
      Ld.findTitleH1Go d idx (s :: rest) = none) ∧
    (∀ (d : Dom.Forest) (idx : Nat) (s : Dom.Sel) (rest : List Dom.Sel)
        (i : Nat) (n : Dom.Node),
      Dom.qsIdx d s = some (i, n) → ¬ i < idx →
      Ld.findTitleH1Go d idx (s :: rest) = Ld.findTitleH1Go d idx rest) := by
  refine ⟨?_, ?_, ?_⟩
  · intro d j i e hprev hcur
    have hfind := Ld.findContentBySelectors_spec (Ld.removeUnwantedElements d)
      Dom.contentSels j i e hprev hcur
    rw [Ld.extractMainContent, hfind]
  · intro d idx s rest i n hq hlt hemp
    rw [Ld.findTitleH1Go, hq]
    dsimp only
    rw [if_pos hlt, if_pos hemp]
  · intro d idx s rest i n hq hlt
    rw [Ld.findTitleH1Go, hq]
    dsimp only
    rw [if_neg hlt]

/-- The parsed form of C9's prefixed scenario: an `h1.title` with text
`My Title` precedes the `<article>` container. -/
def c9DocB : Dom.Forest :=
  [el "html" [] [el "body" []
    [el "h1" [("class", "title")] [tx "My Title"], el "article" [] [tx "BODYTEXT"]]]]

/-- The `<article>` element of `c9DocB`. -/
def c9ArtEl : Dom.Node := el "article" [] [tx "BODYTEXT"]

/-- Witness for the amended C9 rule at `c9DocB`: the article sits at
document-order position 4, the preceding `h1.title` supplies the prefix, and
the content is `<h1>My Title</h1>BODYTEXT`. -/
theorem C9_h1_prefix_amended_witness :
    Ld.extractMainContent c9DocB =
      (match Ld.findTitleH1BeforeContent (Ld.removeUnwantedElements c9DocB) 4 with
        | some t => "<h1>".data ++ t ++ "</h1>".data ++ Ld.preserveFormattingInElement c9ArtEl
        | none => Ld.preserveFormattingInElement c9ArtEl) ∧
      Ld.extractMainContent c9DocB = "<h1>My Title</h1>BODYTEXT".data :=
  ⟨C9_h1_prefix_amended.1 c9DocB ⟨0, by decide⟩ 4 c9ArtEl
      (fun k hk => absurd hk (Nat.not_lt_zero k.val)) rfl,
    by decide⟩

theorem jsTrim_nil_iff {s : Str} : jsTrim s = [] ↔ ∀ c ∈ s, isJsWs c = true := by
  constructor
  · intro h c hc
    rw [jsTrim, jsTrimRight] at h
    have h2 : (jsTrimLeft s).reverse.dropWhile isJsWs = [] := by
      have := congrArg List.reverse h
      simpa using this
    have h4 : ∀ x ∈ jsTrimLeft s, isJsWs x = true := fun x hx =>
      List.dropWhile_eq_nil_iff.mp h2 x (by simpa using hx)
    have h5 : s = s.takeWhile isJsWs ++ jsTrimLeft s :=
      (List.takeWhile_append_dropWhile ..).symm
    rw [h5] at hc
    rcases List.mem_append.mp hc with h6 | h6
    · exact List.mem_takeWhile_imp h6
    · exact h4 c h6
  · intro h
    rw [jsTrim, jsTrimLeft, List.dropWhile_eq_nil_iff.mpr (fun x hx => h x hx)]
    rfl

theorem ws_toLower {c : Char} (h : isJsWs c = true) : c.toLower = c := by
  rw [Char.toLower]
  simp only [isJsWs, Bool.or_eq_true, decide_eq_true_eq, Bool.and_eq_true] at h
  rw [if_neg]
  rintro ⟨h1, h2⟩
  rcases h with ((((((((((((((h3 | h3) | h3) | h3) | h3) | h3) | h3) | h3) | ⟨h3, h4⟩) | h3) |
    h3) | h3) | h3) | h3) | h3) <;> omega

theorem ws_not_eqCI_lt {c : Char} (h : isJsWs c = true) : eqCI '<' c = false := by
  have hl : lowerChar c = c := ws_toLower h
  have hne : c ≠ '<' := by
    intro hcc
    subst hcc
    exact absurd h (by decide)
  rw [eqCI, hl]
  simpa [lowerChar] using fun hq => hne hq.symm

theorem ws_not_eq_lt {c : Char} (h : isJsWs c = true) : c ≠ '<' := by
  intro hcc
  subst hcc
  exact absurd h (by decide)

theorem ws_not_eq_amp {c : Char} (h : isJsWs c = true) : c ≠ '&' := by
  intro hcc
  subst hcc
  exact absurd h (by decide)

namespace Rx

theorem stripCI_lt_none {pat s : Str} (hws : ∀ c ∈ s, isJsWs c = true) :
    stripCI ('<' :: pat) s = none := by
  cases s with
  | nil => rfl
  | cons c rest =>
    rw [stripCI, if_neg]
    simp [ws_not_eqCI_lt (hws c (by simp))]

theorem tagMatchAt_ws {tag s : Str} (hws : ∀ c ∈ s, isJsWs c = true) :
    tagMatchAt tag s = none := by
  rw [tagMatchAt, stripCI_lt_none hws]

theorem tagScanGo_ws {tag : Str} : ∀ {fuel : Nat} {s : Str},
    (∀ c ∈ s, isJsWs c = true) → tagScanGo tag fuel s = []
  | 0, _, _ => rfl
  | _ + 1, [], _ => rfl
  | fuel + 1, c :: rest, hws => by
    rw [tagScanGo, tagMatchAt_ws hws]
    exact tagScanGo_ws (fun x hx => hws x (by simp [hx]))

theorem tagRemoveGo_ws {tag : Str} : ∀ {fuel : Nat} {s : Str},
    (∀ c ∈ s, isJsWs c = true) → tagRemoveGo tag fuel s = s
  | 0, _, _ => rfl
  | _ + 1, [], _ => rfl
  | fuel + 1, c :: rest, hws => by
    rw [tagRemoveGo, tagMatchAt_ws hws]
    rw [tagRemoveGo_ws (fun x hx => hws x (by simp [hx]))]

theorem classMatchAt_ws {cls : Str} {s : Str} (hws : ∀ c ∈ s, isJsWs c = true) :
    classMatchAt cls s = none := by
  rw [classMatchAt.eq_def]
  split
  · next tail =>
    exact absurd (hws '<' (by simp)) (by decide)
  · rfl

theorem classScanGo_ws {cls : Str} : ∀ {fuel : Nat} {s : Str},
    (∀ c ∈ s, isJsWs c = true) → classScanGo cls fuel s = []
  | 0, _, _ => rfl
  | _ + 1, [], _ => rfl
  | fuel + 1, c :: rest, hws => by
    rw [classScanGo, classMatchAt_ws hws]
    exact classScanGo_ws (fun x hx => hws x (by simp [hx]))

theorem classRemoveGo_ws {cls : Str} : ∀ {fuel : Nat} {s : Str},
    (∀ c ∈ s, isJsWs c = true) → classRemoveGo cls fuel s = s
  | 0, _, _ => rfl
  | _ + 1, [], _ => rfl
  | fuel + 1, c :: rest, hws => by
    rw [classRemoveGo, classMatchAt_ws hws]
    rw [classRemoveGo_ws (fun x hx => hws x (by simp [hx]))]

theorem attrMatchAt_ws {lit : Str} {s : Str} (hws : ∀ c ∈ s, isJsWs c = true) :
    attrMatchAt lit s = none := by
  rw [attrMatchAt.eq_def]
  split
  · next tail =>
    exact absurd (hws '<' (by simp)) (by decide)
  · rfl

theorem attrScanGo_ws {lit : Str} : ∀ {fuel : Nat} {s : Str},
    (∀ c ∈ s, isJsWs c = true) → attrScanGo lit fuel s = []
  | 0, _, _ => rfl
  | _ + 1, [], _ => rfl
  | fuel + 1, c :: rest, hws => by
    rw [attrScanGo, attrMatchAt_ws hws]
    exact attrScanGo_ws (fun x hx => hws x (by simp [hx]))

theorem stripHOpen_ws {s : Str} (hws : ∀ c ∈ s, isJsWs c = true) :
    stripHOpen s = none := by
  rw [stripHOpen.eq_def]
  split
  · next a b c2 rest =>
    rw [if_neg (by simp [ws_not_eq_lt (hws a (by simp))])]
  · rfl

theorem hMatchAt_ws {s : Str} (hws : ∀ c ∈ s, isJsWs c = true) :
    hMatchAt s = none := by
  rw [hMatchAt, stripHOpen_ws hws]

theorem hScanGo_ws : ∀ {fuel : Nat} {s : Str},
    (∀ c ∈ s, isJsWs c = true) → hScanGo fuel s = []
  | 0, _, _ => rfl
  | _ + 1, [], _ => rfl
  | fuel + 1, c :: rest, hws => by
    rw [hScanGo, hMatchAt_ws hws]
    exact hScanGo_ws (fun x hx => hws x (by simp [hx]))

theorem findTagInnerGo_ws {tag : Str} : ∀ {fuel : Nat} {s : Str},
    (∀ c ∈ s, isJsWs c = true) → findTagInnerGo tag fuel s = none
  | 0, _, _ => rfl
  | _ + 1, [], _ => rfl
  | fuel + 1, c :: rest, hws => by
    rw [findTagInnerGo, stripCI_lt_none hws]
    exact findTagInnerGo_ws (fun x hx => hws x (by simp [hx]))

theorem metaMatchAt_ws {lit : Str} {s : Str} (hws : ∀ c ∈ s, isJsWs c = true) :
    metaMatchAt lit s = none := by
  rw [metaMatchAt, show ("<meta".data : Str) = '<' :: "meta".data from rfl,
    stripCI_lt_none hws]

theorem findMetaGo_ws {lit : Str} : ∀ {fuel : Nat} {s : Str},
    (∀ c ∈ s, isJsWs c = true) → findMetaGo lit fuel s = none
  | 0, _, _ => rfl
  | _ + 1, [], _ => rfl
  | fuel + 1, c :: rest, hws => by
    rw [findMetaGo, metaMatchAt_ws hws]
    exact findMetaGo_ws (fun x hx => hws x (by simp [hx]))

theorem extractMetaContent_ws {s : Str} {lits : List Str}
    (hws : ∀ c ∈ s, isJsWs c = true) : extractMetaContent s lits = none := by
  induction lits with
  | nil => rfl
  | cons l ls ih =>
    rw [extractMetaContent, findMeta, findMetaGo_ws hws]
    exact ih

theorem tagReplGo_ws : ∀ {fuel : Nat} {s : Str},
    (∀ c ∈ s, isJsWs c = true) → tagReplGo fuel s = s
  | 0, _, _ => rfl
  | _ + 1, [], _ => rfl
  | fuel + 1, c :: rest, hws => by
    rw [tagReplGo, if_neg (ws_not_eq_lt (hws c (by simp)))]
    rw [tagReplGo_ws (fun x hx => hws x (by simp [hx]))]

theorem entityReplGo_ws : ∀ {fuel : Nat} {s : Str},
    (∀ c ∈ s, isJsWs c = true) → entityReplGo fuel s = s
  | 0, _, _ => rfl
  | _ + 1, [], _ => rfl
  | fuel + 1, c :: rest, hws => by
    rw [entityReplGo, if_neg (ws_not_eq_amp (hws c (by simp)))]
    rw [entityReplGo_ws (fun x hx => hws x (by simp [hx]))]

theorem cleanText_ws {s : Str} (hws : ∀ c ∈ s, isJsWs c = true) :
    cleanText s = [] := by
  rw [cleanText, tagRepl, tagReplGo_ws hws, entityRepl, entityReplGo_ws hws]
  rw [jsTrim_nil_iff]
  intro c hc
  rcases mem_collapseGo hc with h1 | h1
  · exact hws c h1
  · rw [h1]; rfl

theorem extractContent_ws {html : Str} (hws : ∀ c ∈ html, isJsWs c = true) :
    extractContent html = ⟨[], [], none, none⟩ := by
  have htitle : extractTitle html = [] := by
    rw [extractTitle, findTagInner, findTagInnerGo_ws hws, findTagInner,
      findTagInnerGo_ws hws]
  have hmeta : ∀ lits, extractMetaContent html lits = none :=
    fun _ => extractMetaContent_ws hws
  have hclean : removeUnwantedElements html = html := by
    rw [removeUnwantedElements]
    have h1 : unwantedTags.foldl (fun acc tag => tagRemove tag acc) html = html := by
      have : ∀ (tags : List Str), tags.foldl (fun acc tag => tagRemove tag acc) html = html := by
        intro tags
        induction tags with
        | nil => rfl
        | cons t ts ih =>
          rw [List.foldl_cons, tagRemove, tagRemoveGo_ws hws]
          exact ih
      exact this unwantedTags
    rw [h1]
    have : ∀ (clss : List Str), clss.foldl (fun acc cls => classRemove cls acc) html = html := by
      intro clss
      induction clss with
      | nil => rfl
      | cons cl cls ih =>
        rw [List.foldl_cons, classRemove, classRemoveGo_ws hws]
        exact ih
    exact this unwantedClasses
  have hsections : findContentSections html = [] := by
    rw [findContentSections, tagMatches, tagScanGo_ws hws, tagMatches, tagScanGo_ws hws,
      attrMatches, attrScanGo_ws hws, classMatches, classScanGo_ws hws,
      classMatches, classScanGo_ws hws, classMatches, classScanGo_ws hws,
      classMatches, classScanGo_ws hws, classMatches, classScanGo_ws hws]
    rfl
  have hmain : extractMainContent html = [] := by
    simp only [extractMainContent]
    rw [hclean, hsections]
    simp only [List.length_nil, if_pos rfl]
    simp only [fallbackContentExtraction]
    rw [tagMatches, tagScanGo_ws hws, hMatches, hScanGo_ws hws]
    simp only [List.append_nil, List.map_nil, List.filter_nil, if_true]
    rw [if_pos (show joinSp ([] : List Str) = [] from rfl),
      extractAllText, tagRepl, tagReplGo_ws hws, cleanText_ws hws]
  rw [extractContent, htitle, hmain, extractMetadata]
  rw [hmeta, hmeta]

end Rx

/-- C8: empty or whitespace-only input yields the all-empty record.  In the
linkedom variant the check short-circuits before the document loader `parse`
is consulted (the conclusion holds for every loader); the regex variant has no
short-circuit but computes the same record, never parsing anything. -/
theorem C8_empty_input_short_circuit :
    (∀ (parse : Str → Dom.Forest) (html : Str), jsTrim html = [] →
      Ld.extractContent parse html = ⟨[], [], none, none⟩) ∧
    (∀ html : Str, jsTrim html = [] →
      Rx.extractContent html = ⟨[], [], none, none⟩) := by
  constructor
  · intro parse html h
    rw [Ld.extractContent, if_pos h]
  · intro html h
    exact Rx.extractContent_ws (jsTrim_nil_iff.mp h)

/-- Witness for C8 at the empty string and at a whitespace-only string, with
a document loader that is never called. -/
theorem C8_empty_input_short_circuit_witness :
    Ld.extractContent (fun _ => []) "".data = ⟨[], [], none, none⟩ ∧
      Rx.extractContent "".data = ⟨[], [], none, none⟩ ∧
      Ld.extractContent (fun _ => []) "  \t\n ".data = ⟨[], [], none, none⟩ ∧
      Rx.extractContent "  \t\n ".data = ⟨[], [], none, none⟩ :=
  ⟨C8_empty_input_short_circuit.1 (fun _ => []) "".data (by decide),
    C8_empty_input_short_circuit.2 "".data (by decide),
    C8_empty_input_short_circuit.1 (fun _ => []) "  \t\n ".data (by decide),
    C8_empty_input_short_circuit.2 "  \t\n ".data (by decide)⟩

namespace Rx

theorem stripCI_decomp {pat s r : Str} (h : stripCI pat s = some r) :
    ∃ t, s = t ++ r ∧ t.map lowerChar = pat.map lowerChar := by
  induction pat generalizing s with
  | nil =>
    rw [stripCI] at h
    exact ⟨[], by simpa using h, rfl⟩
  | cons p ps ih =>
    cases s with
    | nil => cases h
    | cons c cs =>
      rw [stripCI] at h
      by_cases he : eqCI p c
      · rw [if_pos he] at h
        obtain ⟨t, ht1, ht2⟩ := ih h
        refine ⟨c :: t, by simp [ht1], ?_⟩
        rw [eqCI, decide_eq_true_eq] at he
        simp [ht2, he]
      · rw [if_neg he] at h
        cases h

theorem splitAtCh_some {ch : Char} {s a b : Str} (h : splitAtCh ch s = some (a, b)) :
    s = a ++ ch :: b ∧ ch ∉ a := by
  induction s generalizing a b with
  | nil => cases h
  | cons x xs ih =>
    rw [splitAtCh] at h
    by_cases hx : x = ch
    · rw [if_pos hx] at h
      obtain ⟨h1, h2⟩ := Prod.mk.injEq .. ▸ Option.some.injEq .. ▸ h
      subst hx
      constructor
      · rw [← h1, ← h2]; rfl
      · rw [← h1]; simp
    · rw [if_neg hx] at h
      cases hsp : splitAtCh ch xs with
      | none => rw [hsp] at h; cases h
      | some p =>
        rw [hsp] at h
        obtain ⟨pa, pb⟩ := p
        have := ih (a := pa) (b := pb) hsp
        simp only [Option.some.injEq, Prod.mk.injEq] at h
        constructor
        · rw [← h.1, ← h.2]
          simp [this.1]
        · rw [← h.1]
          simp only [List.mem_cons, not_or]
          exact ⟨fun hq => hx hq.symm, this.2⟩

theorem splitAtCh_none {ch : Char} {s : Str} (h : splitAtCh ch s = none) : ch ∉ s := by
  induction s with
  | nil => simp
  | cons x xs ih =>
    rw [splitAtCh] at h
    by_cases hx : x = ch
    · rw [if_pos hx] at h; cases h
    · rw [if_neg hx] at h
      cases hsp : splitAtCh ch xs with
      | none =>
        simp only [List.mem_cons, not_or]
        exact ⟨fun hq => hx hq.symm, ih hsp⟩
      | some p => rw [hsp] at h; cases h

theorem candList_mem {pat cand : Str} : ∀ {n : Nat} {s : Str},
    cand ∈ candList pat n s → ∃ mid, s = mid ++ cand ∧ mid.length < n := by
  intro n
  induction n with
  | zero => intro s h; rw [candList.eq_def] at h; cases s <;> cases h
  | succ k ih =>
    intro s h
    cases s with
    | nil => cases h
    | cons c rest =>
      rw [candList] at h
      rcases List.mem_append.mp h with h1 | h2
      · by_cases hs : (stripCI pat (c :: rest)).isSome
        · rw [if_pos hs] at h1
          rcases List.mem_singleton.mp h1 with rfl
          exact ⟨[], rfl, Nat.succ_pos k⟩
        · rw [if_neg hs] at h1
          cases h1
      · obtain ⟨mid, hm1, hm2⟩ := ih h2
        exact ⟨c :: mid, by simp [hm1], by simpa using hm2⟩

theorem firstSome_sound {α β : Type} {f : α → Option β} {l : List α} {v : β}
    (h : firstSome f l = some v) : ∃ x ∈ l, f x = some v := by
  induction l with
  | nil => cases h
  | cons x xs ih =>
    rw [firstSome] at h
    cases hf : f x with
    | some w =>
      rw [hf] at h
      have : w = v := by simpa using h
      exact ⟨x, by simp, hf.trans (by rw [this])⟩
    | none =>
      rw [hf] at h
      obtain ⟨y, hy1, hy2⟩ := ih h
      exact ⟨y, by simp [hy1], hy2⟩

end Rx

/-- A name-before-content decomposition of the input: a `<meta` literal, some
whitespace, the name/property attribute literal, an intervening stretch free
of `>`, then the `content` attribute with the captured value — the shape
claim C10 says is the only one the regex variant recognizes. -/
def MetaDecomp (html attrLit v : Str) : Prop :=
  ∃ pre tagTok ws attrTok mid contTok post,
    html = pre ++ tagTok ++ ws ++ attrTok ++ mid ++ contTok ++ v ++ '"' :: post ∧
    tagTok.map lowerChar = "<meta".data ∧
    ws ≠ [] ∧ (∀ c ∈ ws, isJsWs c = true) ∧
    attrTok.map lowerChar = attrLit.map lowerChar ∧
    '>' ∉ mid ∧
    contTok.map lowerChar = "content=\"".data ∧
    '"' ∉ v

namespace Rx

theorem metaMatchAt_sound {attrLit s v : Str} (h : metaMatchAt attrLit s = some v) :
    ∃ tagTok ws attrTok mid contTok post,
      s = tagTok ++ ws ++ attrTok ++ mid ++ contTok ++ v ++ '"' :: post ∧
      tagTok.map lowerChar = "<meta".data ∧
      ws ≠ [] ∧ (∀ c ∈ ws, isJsWs c = true) ∧
      attrTok.map lowerChar = attrLit.map lowerChar ∧
      '>' ∉ mid ∧
      contTok.map lowerChar = "content=\"".data ∧
      '"' ∉ v := by
  rw [metaMatchAt] at h
  cases h1 : stripCI "<meta".data s with
  | none => rw [h1] at h; cases h
  | some afterMeta =>
    rw [h1] at h
    dsimp only at h
    obtain ⟨tagTok, htag1, htag2⟩ := stripCI_decomp h1
    by_cases hws0 : afterMeta.takeWhile isJsWs = []
    · rw [if_pos hws0] at h; cases h
    · rw [if_neg hws0] at h
      cases h2 : stripCI attrLit (afterMeta.dropWhile isJsWs) with
      | none => rw [h2] at h; cases h
      | some afterAttr =>
        rw [h2] at h
        dsimp only at h
        obtain ⟨attrTok, hat1, hat2⟩ := stripCI_decomp h2
        obtain ⟨cand, hcand, hf⟩ := firstSome_sound h
        have hcand2 : cand ∈ candList "content=\"".data
            (match splitAtCh '>' afterAttr with
             | some (zone, _) => zone.length
             | none => afterAttr.length) afterAttr := by
          simpa using hcand
        obtain ⟨mid, hmid1, hmid2⟩ := candList_mem hcand2
        cases h3 : stripCI "content=\"".data cand with
        | none => rw [h3] at hf; exact absurd hf (by simp)
        | some afterLit =>
          rw [h3] at hf
          dsimp only at hf
          obtain ⟨contTok, hct1, hct2⟩ := stripCI_decomp h3
          cases h4 : splitAtCh '"' afterLit with
          | none => rw [h4] at hf; exact absurd hf (by simp)
          | some p =>
            obtain ⟨v2, post⟩ := p
            rw [h4] at hf
            dsimp only at hf
            have hv : v2 = v := by simpa using hf
            subst hv
            obtain ⟨hq1, hq2⟩ := splitAtCh_some h4
            have hgt : '>' ∉ mid := by
              cases h5 : splitAtCh '>' afterAttr with
              | none =>
                have h6 := splitAtCh_none h5
                intro hm
                exact h6 (by rw [hmid1]; simp [hm])
              | some zp =>
                obtain ⟨zone, after2⟩ := zp
                rw [h5] at hmid2
                dsimp only at hmid2
                obtain ⟨h7, h8⟩ := splitAtCh_some h5
                rw [hmid1] at h7
                rcases List.append_eq_append_iff.mp h7 with ⟨t, ht1, _⟩ | ⟨t, ht1, ht2⟩
                · intro hm
                  exact h8 (by rw [ht1]; simp [hm])
                · cases t with
                  | nil =>
                    intro hm
                    rw [List.append_nil] at ht1
                    exact h8 (ht1 ▸ hm)
                  | cons z zs =>
                    exfalso
                    have : zone.length + (z :: zs).length = mid.length := by
                      rw [ht1]; simp
                    simp only [List.length_cons] at this
                    omega
            have hwsall : ∀ c ∈ afterMeta.takeWhile isJsWs, isJsWs c = true :=
              fun c hc => List.mem_takeWhile_imp hc
            refine ⟨tagTok, afterMeta.takeWhile isJsWs, attrTok, mid, contTok, post,
              ?_, htag2, hws0, hwsall, hat2, hgt, hct2, hq2⟩
            rw [htag1]
            conv_lhs => rw [← List.takeWhile_append_dropWhile (p := isJsWs) (l := afterMeta)]
            rw [hat1, hmid1, hct1, hq1]
            simp [List.append_assoc]

theorem findMetaGo_sound {attrLit : Str} : ∀ {fuel : Nat} {s v : Str},
    findMetaGo attrLit fuel s = some v →
    ∃ pre suffix, s = pre ++ suffix ∧ metaMatchAt attrLit suffix = some v
  | 0, _, _, h => by cases h
  | _ + 1, [], _, h => by cases h
  | fuel + 1, c :: rest, v, h => by
    rw [findMetaGo] at h
    cases hm : metaMatchAt attrLit (c :: rest) with
    | some w =>
      rw [hm] at h
      have : w = v := by simpa using h
      exact ⟨[], c :: rest, rfl, this ▸ hm⟩
    | none =>
      rw [hm] at h
      obtain ⟨pre, suffix, hp1, hp2⟩ := findMetaGo_sound h
      exact ⟨c :: pre, suffix, by simp [hp1], hp2⟩

end Rx

/-- A document whose author and date meta tags are written with the `content`
attribute before the `name`/`property` attribute. -/
def c10Input : Str :=
  "<html><head><meta content=\"Ann Author\" name=\"author\"><meta content=\"2020-01-01\" property=\"article:published_time\"></head><body><p>x</p></body></html>".data

/-- A meta tag with the attribute order the regex variant recognizes. -/
def c10wInput : Str :=
  "<meta name=\"author\" content=\"Ann\">".data

set_option maxRecDepth 10000 in
/-- Claim C10 (confirmed): in the regex-based variant, every successful meta
lookup decomposes the input as `<meta` + whitespace + the name/property
attribute literal + a `>`-free stretch + `content="` + the captured value —
i.e. the name/property attribute textually precedes the content attribute —
and on a concrete input whose meta tags are written content-first, the author
and publishedDate fields of `extractContent` are both absent. -/
theorem C10_meta_attr_order :
    (∀ attrLit html v : Str,
      Rx.findMeta attrLit html = some v → MetaDecomp html attrLit v) ∧
    (Rx.extractContent c10Input).author = none ∧
    (Rx.extractContent c10Input).publishedDate = none := by
  refine ⟨?_, by decide, by decide⟩
  intro attrLit html v h
  obtain ⟨pre, suffix, hps, hm⟩ := Rx.findMetaGo_sound h
  obtain ⟨tagTok, ws, attrTok, mid, contTok, post, he, h2, h3, h4, h5, h6, h7⟩ :=
    Rx.metaMatchAt_sound hm
  exact ⟨pre, tagTok, ws, attrTok, mid, contTok, post,
    by rw [hps, he]; simp [List.append_assoc], h2, h3, h4, h5, h6, h7⟩

/-- Witness for C10: the universal soundness conjunct applied at a concrete
name-first meta tag, whose lookup succeeds and therefore decomposes. -/
theorem C10_meta_attr_order_witness :
    Rx.findMeta "name=\"author\"".data c10wInput = some "Ann".data ∧
    MetaDecomp c10wInput "name=\"author\"".data "Ann".data :=
  ⟨by decide, C10_meta_attr_order.1 _ _ _ (by decide)⟩

/-- The C7 counterexample input: the marker text sits in the second paragraph
of an unwanted `class="sidebar"` element. -/
def c7Input : Str :=
  "<div class=\"sidebar\"><p>x</p><p>LEAKMARKER is padded out to pass thirty chars.</p></div>".data

set_option maxRecDepth 10000 in
/-- Counterexample to claim C7 as stated: in the regex variant, the non-greedy
`.*?` of the class-removal regex stops at the first closing tag inside the
unwanted `sidebar` element, so the marker text of its second paragraph
survives removal and appears in the extracted content. -/
theorem C7_noise_exclusion_counterexample :
    "sidebar".data ∈ Rx.unwantedClasses ∧
    subStrB "LEAKMARKER".data (Rx.extractMainContent c7Input) = true := by
  exact ⟨by decide, by decide⟩

/-- Claim C7 corrected: the linkedom variant does satisfy noise exclusion.
Every piece of the extracted content is drawn from the document left after
`removeUnwantedElements`, so any marker (two or more letters, all alphabetic)
that occurs neither in the serialization nor in the text content of the
pruned document is absent from `extractMainContent`'s result.  On a document
whose marker text lies only inside unwanted elements, the two absence
hypotheses hold by computation (see the witness). -/
theorem C7_noise_exclusion_amended (d : Dom.Forest) (m : Str)
    (hlen : 2 ≤ m.length)
    (halpha : ∀ c ∈ m, c.isAlpha = true)
    (hv : Dom.voidOkL (Ld.removeUnwantedElements d) = true)
    (hser : ¬ SubStr m (Dom.serializeList (Ld.removeUnwantedElements d)))
    (htxt : ¬ SubStr m (Dom.textContentList (Ld.removeUnwantedElements d))) :
    ¬ SubStr m (Ld.extractMainContent d) := by
  intro hsub
  have hne : m ≠ [] := by intro h; rw [h] at hlen; simp at hlen
  have hsp : ' ' ∉ m := fun hc => by simpa using halpha ' ' hc
  have hclean : Dom.cleanL (Dom.unwantedTagSels ++ Dom.unwantedClassSels)
      (Ld.removeUnwantedElements d) = true := by
    rw [Ld.removeUnwantedElements, Dom.removeBySelList_eq_pruneList,
      Dom.removeBySelList_eq_pruneList, Dom.pruneList_pruneList]
    exact Dom.cleanL_pruneList _ _
  have key : ∀ (sels : List Dom.Sel) (minL : Nat) (x : Str),
      x ∈ Ld.extractElementsText (Ld.removeUnwantedElements d) sels minL →
      SubStr m x → False := by
    intro sels minL x hx hsx
    rw [Ld.extractElementsText] at hx
    obtain ⟨y, hy, hyx⟩ := List.mem_map.mp (List.mem_of_mem_filter hx)
    exact hser (Ld.subStr_preserve (Dom.qsa_mem hy) hclean hv hne (hyx ▸ hsx))
  simp only [Ld.extractMainContent] at hsub
  cases hfc : Ld.findContentBySelectors (Ld.removeUnwantedElements d) Dom.contentSels with
  | some c =>
    rw [hfc] at hsub
    dsimp only at hsub
    obtain ⟨e, he, hcases⟩ := Ld.findContentBySelectors_some hfc
    rcases hcases with hplain | ⟨n, hn, heq, hnne⟩
    · exact hser (Ld.subStr_preserve he hclean hv hne (hplain ▸ hsub))
    · rw [heq] at hsub
      rcases subStr_append_cases halpha hsub
          (Or.inr ⟨'>', by
            rw [List.getLast?_append_of_ne_nil _ (by decide : ("</h1>".data : Str) ≠ [])]
            rfl, by decide⟩) with h1 | h2
      · rcases subStr_append_cases halpha h1 (Or.inl ⟨'<', rfl, by decide⟩) with h3 | h4
        · rcases subStr_append_cases halpha h3 (Or.inr ⟨'>', by decide, by decide⟩) with h5 | h6
          · exact absurd h5 (not_subStr_of_noAlphaPair (by decide) hlen halpha)
          · exact htxt (subStr_trans (subStr_jsTrim h6) (Dom.subStr_textList_of_mem _ n hn))
        · exact absurd h4 (not_subStr_of_noAlphaPair (by decide) hlen halpha)
      · exact hser (Ld.subStr_preserve he hclean hv hne h2)
  | none =>
    rw [hfc] at hsub
    dsimp only at hsub
    simp only [Ld.extractContentFallback] at hsub
    split at hsub
    · obtain ⟨x, hx, hsx⟩ := subStr_joinSp hne hsp hsub
      rcases List.mem_append.mp hx with hh | hp
      · exact key _ _ x hh hsx
      · exact key _ _ x hp hsx
    · cases hq : Dom.qs (Ld.removeUnwantedElements d) (Dom.Sel.tag "body".data) with
      | none =>
        rw [hq] at hsub
        exact hne (subStr_nil hsub)
      | some e =>
        rw [hq] at hsub
        obtain ⟨i, hqi⟩ := Dom.qs_qsIdx hq
        exact hser (Ld.subStr_preserve (Dom.qsIdx_mem hqi) hclean hv hne hsub)

/-- The witness document: a `<nav>` holding the marker text, next to an
`<article>` with the real content. -/
def c7Doc : Dom.Forest :=
  [el "html" []
    [el "body" []
      [el "nav" [] [tx "NOISEMARKER"],
       el "article" [] [tx "Real content here."]]]]

/-- Witness for the corrected C7: on a document whose marker lies only inside
a `<nav>` element, the marker is in the document's text but not in the
extracted content. -/
theorem C7_noise_exclusion_amended_witness :
    subStrB "NOISEMARKER".data (Dom.textContentList c7Doc) = true ∧
    ¬ SubStr "NOISEMARKER".data (Ld.extractMainContent c7Doc) :=
  ⟨by decide,
    C7_noise_exclusion_amended c7Doc _ (by decide) (by decide) (by decide)
      (fun h => absurd ((subStrB_iff _ _).mpr h) (by decide))
      (fun h => absurd ((subStrB_iff _ _).mpr h) (by decide))⟩
